import Mathlib

/-!
Verification of the cyberroomba pipeline core: the bounded-concurrency task
scheduler (`runParallelAttacks` / `runParallelRecon`), the recon result
normalizer (`normalizeRecon`), the finding normalizer
(`parseNucleiResults`, `parseNmapVulnerabilities`, `mergeFindings`,
`severityFromCvss`) and the CVE correlator
(`enrichVulnerabilitiesWithNvd`, `suggestCvesFromTech`, `parseCpe`).

The TypeScript sources are shallowly embedded: JS strings are Lean
`String`s (with executable helpers mirroring `toLowerCase`, `includes`,
`split(":")` and truthiness on the ASCII fragment the data uses), JS
numbers carrying CVSS scores are `ℚ`, JS `Set`/`Map` are insertion-ordered
association lists, `undefined`/absent is `Option.none`, and async
scheduling is a deterministic worker-pool state machine driven by an
adversarial completion schedule.
-/

set_option maxHeartbeats 1000000

namespace Cyberroomba

/-! ## JS primitives -/

/-- JS truthiness of an optional string: `undefined`, `null` and `""` are
falsy, every other string is truthy. -/
def truthyS : Option String → Bool
  | none => false
  | some s => s ≠ ""

/-- ASCII fragment of JS `String.prototype.toLowerCase` on one character. -/
def jsCharToLower (c : Char) : Char :=
  if 65 ≤ c.toNat ∧ c.toNat ≤ 90 then Char.ofNat (c.toNat + 32) else c

/-- JS `s.toLowerCase()` (ASCII fragment). -/
def jsToLower (s : String) : String := ⟨s.data.map jsCharToLower⟩

/-- Boolean list-prefix test, for the substring search of `includes`. -/
def isPrefixB : List Char → List Char → Bool
  | [], _ => true
  | _ :: _, [] => false
  | a :: as, b :: bs => a == b && isPrefixB as bs

/-- Boolean list-infix test, for the substring search of `includes`. -/
def isInfixB (sub : List Char) : List Char → Bool
  | [] => sub.isEmpty
  | b :: bs => isPrefixB sub (b :: bs) || isInfixB sub bs

/-- JS `s.includes(sub)`. -/
def jsIncludes (s sub : String) : Bool := isInfixB sub.data s.data

/-- Splitting on a single separator character, JS `s.split(c)` semantics:
`"a::b".split(":") = ["a","","b"]` and `"".split(":") = [""]`. -/
def jsSplitChar (c : Char) : List Char → List (List Char)
  | [] => [[]]
  | a :: rest =>
    match jsSplitChar c rest with
    | [] => [[a]]
    | h :: t => if a == c then [] :: h :: t else (a :: h) :: t

/-- JS `s.split(":")`, used by `parseCpe`. -/
def jsSplitOnColon (s : String) : List String :=
  (jsSplitChar ':' s.data).map List.asString

/-- JS `Set<string>.add`: insertion-ordered, deduplicating. -/
def setAdd (xs : List String) (x : String) : List String :=
  if x ∈ xs then xs else xs ++ [x]

/-! ## Finding model (src/src/schemas/index.ts)

`severityLevels`, `confidenceLevels` and the parts of `vulnerabilitySchema`
the verified functions read and write. Evidence-bag values are the three
shapes the parsers actually store: strings, numbers (ports) and string
arrays (references). -/

inductive Severity where
  | critical | high | medium | low | info
  deriving DecidableEq, Repr

inductive Confidence where
  | confirmed | suspected | needsReview
  deriving DecidableEq, Repr

inductive EvVal where
  | str (v : String)
  | num (v : Nat)
  | strList (v : List String)
  deriving DecidableEq, Repr

structure Cvss where
  baseScore : ℚ
  vector : Option String
  version : Option String
  deriving DecidableEq, Repr

structure CveRef where
  id : String
  cvss : Option Cvss
  deriving DecidableEq, Repr

structure Vulnerability where
  reconId : String
  source : String
  title : String
  severity : Severity
  confidence : Confidence
  status : String
  description : Option String
  evidence : Option (List (String × EvVal))
  cves : List CveRef
  category : Option String
  remediation : Option String
  createdAt : String
  updatedAt : String
  tags : List String
  deriving DecidableEq, Repr

/-! ## Finding normalizer (src/src/vuln/parse.ts) -/

/-- `normalizeSeverity`: lower-case the raw label (default `"medium"`),
keep it when canonical, else fall back to `medium`. -/
def normalizeSeverity (raw : Option String) : Severity :=
  let normalized := jsToLower (raw.getD "medium")
  if normalized = "critical" then .critical
  else if normalized = "high" then .high
  else if normalized = "medium" then .medium
  else if normalized = "low" then .low
  else if normalized = "info" then .info
  else .medium

/-- `severityFromCvss`: threshold mapping from an optional numeric score. -/
def severityFromCvss : Option ℚ → Severity
  | none => .medium
  | some score =>
    if score ≥ 9 then .critical
    else if score ≥ 7 then .high
    else if score ≥ 4 then .medium
    else if score > 0 then .low
    else .info

/-- `pruneEmpty` applied while building an evidence bag: keys whose value
is `undefined` (here `none`) or the empty string are dropped. -/
def pruneEmptyEv (entries : List (String × Option EvVal)) : List (String × EvVal) :=
  entries.filterMap fun kv =>
    match kv.2 with
    | none => none
    | some (.str "") => none
    | some v => some (kv.1, v)

structure BaseParams where
  reconId : String
  source : String
  title : String
  severity : Severity
  confidence : Confidence
  description : Option String := none
  evidence : List (String × EvVal) := []
  cves : List CveRef := []
  category : Option String := none
  remediation : Option String := none

/-- `baseVulnerability`: assembles the canonical record, omitting falsy
optional fields, stamping metadata with the current time `now`. -/
def baseVulnerability (params : BaseParams) (now : String) : Vulnerability :=
  { reconId := params.reconId
    source := params.source
    title := params.title
    severity := params.severity
    confidence := params.confidence
    status := "open"
    description := if truthyS params.description then params.description else none
    evidence := if params.evidence.length ≠ 0 then some params.evidence else none
    cves := if params.cves.length ≠ 0 then params.cves else []
    category := if truthyS params.category then params.category else none
    remediation := if truthyS params.remediation then params.remediation else none
    createdAt := now
    updatedAt := now
    tags := [] }

/-- One entry of the nuclei JSON-lines output (`nucleiSchema`). -/
structure NucleiFinding where
  templateID : String
  name : String
  severity : Option String := none
  description : Option String := none
  reference : Option (List String) := none
  cve : Option String := none
  tags : Option (List String) := none
  cvssScore : Option ℚ := none
  host : String
  matchedAt : Option String := none
  request : Option String := none
  response : Option String := none
  timestamp : Option String := none

/-- JS `Array.prototype.join(", ")`. -/
def joinComma : List String → String
  | [] => ""
  | [s] => s
  | s :: rest => s ++ ", " ++ joinComma rest

/-- `parseNucleiResults`: `raw = none` models a failed `safeParse`
(returns `[]`); otherwise each record maps to one Finding. -/
def parseNucleiResults (reconId jobId : String) (raw : Option (List NucleiFinding))
    (now : String) : List Vulnerability :=
  match raw with
  | none => []
  | some data =>
    data.map fun finding =>
      let severity := normalizeSeverity finding.severity
      let confidence : Confidence :=
        if truthyS finding.cve then .confirmed else .needsReview
      let cves : List CveRef :=
        if truthyS finding.cve then
          [{ id := finding.cve.getD ""
             cvss := finding.cvssScore.map fun s =>
               { baseScore := s, vector := none, version := some "3.x" } }]
        else []
      let evidence := pruneEmptyEv
        [("host", some (.str finding.host)),
         ("matchedAt", finding.matchedAt.map .str),
         ("request", finding.request.map .str),
         ("response", finding.response.map .str),
         ("templateId", some (.str finding.templateID)),
         ("timestamp", finding.timestamp.map .str),
         ("references", finding.reference.map .strList),
         ("jobId", some (.str jobId))]
      baseVulnerability
        { reconId := reconId
          source := "nuclei"
          title := finding.name
          severity := severity
          confidence := confidence
          evidence := evidence
          cves := cves
          category :=
            if (finding.tags.getD []).length ≠ 0 then some (joinComma (finding.tags.getD []))
            else none
          description := if truthyS finding.description then finding.description else none }
        now

/-- One `vulners` script entry of the nmap output (`nmapSchema`). -/
structure VulnersEntry where
  id : String
  cvss : Option ℚ := none
  description : Option String := none

structure NmapPort where
  port : Nat
  service : Option String := none
  product : Option String := none
  version : Option String := none
  vulners : List VulnersEntry := []

structure NmapHost where
  host : String
  ports : List NmapPort := []

/-- `parseNmapVulnerabilities`: one Finding per `vulners` entry per port;
`raw = none` models a failed `safeParse`. -/
def parseNmapVulnerabilities (reconId jobId : String) (raw : Option NmapHost)
    (now : String) : List Vulnerability :=
  match raw with
  | none => []
  | some data =>
    data.ports.flatMap fun port =>
      port.vulners.map fun entry =>
        let severity := severityFromCvss entry.cvss
        let evidence := pruneEmptyEv
          [("host", some (.str data.host)),
           ("port", some (.num port.port)),
           ("service", port.service.map .str),
           ("product", port.product.map .str),
           ("version", port.version.map .str),
           ("jobId", some (.str jobId))]
        let cves : List CveRef :=
          [{ id := entry.id
             cvss := entry.cvss.map fun s =>
               { baseScore := s, vector := none, version := some "3.x" } }]
        let category := match port.service with
          | some s => some s
          | none => port.product
        baseVulnerability
          { reconId := reconId
            source := "nmap"
            title := entry.id ++ " on port " ++ toString port.port
            severity := severity
            confidence := .suspected
            evidence := evidence
            cves := cves
            category := category
            description := if truthyS entry.description then entry.description else none }
          now

/-- The deduplication key string `` `${reconId}:${source}:${title}` ``. -/
def findingKey (f : Vulnerability) : String :=
  f.reconId ++ ":" ++ f.source ++ ":" ++ f.title

/-- One step of the `mergeFindings` forEach: skip the finding when its key
is in the seen set, else append it and record the key. -/
def mergeStep (acc : List Vulnerability × List String) (f : Vulnerability) :
    List Vulnerability × List String :=
  if findingKey f ∈ acc.2 then acc else (acc.1 ++ [f], acc.2 ++ [findingKey f])

/-- `mergeFindings(...lists)`: flatten, then keep the first occurrence of
every key, tracked by a `Set<string>` of `reconId:source:title` keys. -/
def mergeFindings (lists : List (List Vulnerability)) : List Vulnerability :=
  (lists.flatten.foldl mergeStep ([], [])).1

/-! ## CVE correlator (src/unnamed part, `CveMatcher`) -/

/-- `CveDetail`: one index entry — id, optional CVSS base score and vector,
and the platform-identifier (CPE) strings marked vulnerable. -/
structure CveDetail where
  id : String
  baseScore : Option ℚ := none
  vector : Option String := none
  cpes : List String := []
  deriving DecidableEq, Repr

/-- The index built by `buildCveIndex` is a `Map<string, CveDetail>` whose
keys are the details' own ids; we model it as the insertion-ordered list of
details, `get` searching by id. -/
def indexGet (index : List CveDetail) (id : String) : Option CveDetail :=
  index.find? (fun d => d.id == id)

/-- The per-reference body of `enrichVulnerabilitiesWithNvd`: look the id
up, take `detail.baseScore ?? entry.cvss?.baseScore`, bail out unless that
is a number, else rebuild the reference with backfilled score/vector. -/
def enrichEntry (index : List CveDetail) (entry : CveRef) : CveRef :=
  match indexGet index entry.id with
  | none => entry
  | some detail =>
    match detail.baseScore <|> entry.cvss.map (·.baseScore) with
    | none => entry
    | some baseScore =>
      { id := entry.id
        cvss := some
          { baseScore := baseScore
            vector := detail.vector <|> entry.cvss.bind (·.vector)
            version := some (((entry.cvss.bind (·.version))).getD "3.x") } }

/-- The per-finding body of `enrichVulnerabilitiesWithNvd`: pass a finding
without CVE references through, else spread the finding with its
references enriched. -/
def enrichFinding (index : List CveDetail) (finding : Vulnerability) : Vulnerability :=
  if finding.cves.length = 0 then finding
  else { finding with cves := finding.cves.map (enrichEntry index) }

/-- `enrichVulnerabilitiesWithNvd`: map `enrichFinding` over the list. -/
def enrichVulnerabilitiesWithNvd (vulns : List Vulnerability)
    (index : List CveDetail) : List Vulnerability :=
  vulns.map (enrichFinding index)

/-- `parseCpe`: split on `":"`, require at least 5 parts, expose truthy
vendor (part 3) and product (part 4). -/
def parseCpe (cpe : String) : Option (Option String × Option String) :=
  let parts := jsSplitOnColon cpe
  if parts.length < 5 then none
  else
    some
      (if truthyS (some (parts.getD 3 "")) then some (parts.getD 3 "") else none,
       if truthyS (some (parts.getD 4 "")) then some (parts.getD 4 "") else none)

structure TechFingerprint where
  name : String
  version : Option String := none
  deriving DecidableEq, Repr

/-- The body of the innermost `forEach` of `suggestCvesFromTech`: push a
`(fingerprint, detail)` pair when the CPE's truthy product token is
contained in the lower-cased fingerprint name. -/
def cpeMatchStep (fingerprint : TechFingerprint) (detail : CveDetail)
    (acc : List (TechFingerprint × CveDetail)) (cpe : String) :
    List (TechFingerprint × CveDetail) :=
  match parseCpe cpe with
  | none => acc
  | some parsed =>
    match parsed.2 with
    | none => acc
    | some product =>
      if jsIncludes (jsToLower fingerprint.name) (jsToLower product) then
        acc ++ [(fingerprint, detail)]
      else acc

/-- Inner accumulation of `suggestCvesFromTech` over one detail's CPE
strings. -/
def suggestForCpes (fingerprint : TechFingerprint) (detail : CveDetail)
    (acc : List (TechFingerprint × CveDetail)) : List (TechFingerprint × CveDetail) :=
  detail.cpes.foldl (cpeMatchStep fingerprint detail) acc

/-- `suggestCvesFromTech`: the O(techs × entries × cpes) triple loop. -/
def suggestCvesFromTech (tech : List TechFingerprint) (index : List CveDetail) :
    List (TechFingerprint × CveDetail) :=
  tech.foldl
    (fun acc fingerprint =>
      index.foldl (fun acc2 detail => suggestForCpes fingerprint detail acc2) acc)
    []

/-! ## Recon result normalizer (src/unnamed part, `ReconNormalization`)

JS `Map`s are insertion-ordered association lists; `Map.get` finds by key,
`Map.set` updates in place or appends. -/

def mapGet [BEq κ] (m : List (κ × α)) (k : κ) : Option α :=
  (m.find? (fun p => p.1 == k)).map (·.2)

def mapSet [BEq κ] (m : List (κ × α)) (k : κ) (v : α) : List (κ × α) :=
  match mapGet m k with
  | some _ => m.map (fun p => if p.1 == k then (k, v) else p)
  | none => m ++ [(k, v)]

/-- Port data accumulated per host (`protocol?`, `service?`). -/
structure PortInfo where
  protocol : Option String := none
  service : Option String := none
  deriving DecidableEq, Repr

/-- The per-host accumulator `HostEntry` of `normalizeRecon`. -/
structure HostEntry where
  host : String
  ips : List String := []
  ports : List (Nat × PortInfo) := []
  tech : List String := []
  sources : List String := []
  titles : List String := []
  webservers : List String := []
  liveness : Bool := false
  deriving DecidableEq, Repr

/-- `upsertHost` followed by the caller's mutation `f` of the entry. -/
def upsertThen (m : List (String × HostEntry)) (host : String)
    (f : HostEntry → HostEntry) : List (String × HostEntry) :=
  match mapGet m host with
  | some _ => m.map (fun p => if p.1 == host then (p.1, f p.2) else p)
  | none => m ++ [(host, f { host := host })]

/-- One `subfinderSchema` entry. -/
structure SubfinderEntry where
  host : String
  source : Option String := none
  ip : Option String := none

/-- One `amassSchema` node (`addresses` flattened to their `ip` fields). -/
structure AmassNode where
  name : String
  addresses : List String := []
  sources : List String := []

/-- One `httpxSchema` entry. -/
structure HttpxEntry where
  host : String
  port : Nat
  scheme : String
  statusCode : Int
  title : Option String := none
  webserver : Option String := none
  tech : Option (List String) := none
  a : Option (List String) := none

/-- One port of a `securityTrailsSchema` record. -/
structure StPort where
  port : Nat
  protocol : Option String := none
  service : Option String := none

/-- One `securityTrailsSchema` record. -/
structure StRecord where
  hostname : String
  organization : Option String := none
  country : Option String := none
  ports : List StPort := []

/-- `normalizeRecon` inputs: `none` models an absent payload or one that
failed `safeParse` (both contribute nothing). -/
structure ReconInputs where
  targetId : String
  primaryTarget : String
  jobId : String
  subfinder : Option (List SubfinderEntry) := none
  amass : Option (List AmassNode) := none
  httpx : Option (List HttpxEntry) := none
  securitytrails : Option (List StRecord) := none

/-- The per-entry mutation of the subfinder pass: add the truthy ip and
tagged source. -/
def subfinderUpd (e : SubfinderEntry) (r : HostEntry) : HostEntry :=
  let r := if truthyS e.ip then { r with ips := setAdd r.ips (e.ip.getD "") } else r
  if truthyS e.source then
    { r with sources := setAdd r.sources ("subfinder:" ++ e.source.getD "") }
  else r

/-- The subfinder pass. -/
def subfinderStep (m : List (String × HostEntry)) (e : SubfinderEntry) :
    List (String × HostEntry) :=
  upsertThen m e.host (subfinderUpd e)

/-- The per-node mutation of the amass pass: every address ip and tagged
source. -/
def amassUpd (node : AmassNode) (r : HostEntry) : HostEntry :=
  let r := { r with ips := node.addresses.foldl setAdd r.ips }
  { r with
    sources := node.sources.foldl (fun acc src => setAdd acc ("amass:" ++ src)) r.sources }

/-- The amass pass. -/
def amassStep (m : List (String × HostEntry)) (node : AmassNode) :
    List (String × HostEntry) :=
  upsertThen m node.name (amassUpd node)

/-- The per-entry mutation of the httpx pass: OR the liveness, collect
truthy title/webserver, union tech and A-record ips, and default the
port's protocol/service. -/
def httpxUpd (e : HttpxEntry) (r : HostEntry) : HostEntry :=
  let r := { r with liveness := r.liveness || decide (e.statusCode < 500) }
  let r := if truthyS e.title then { r with titles := setAdd r.titles (e.title.getD "") } else r
  let r :=
    if truthyS e.webserver then { r with webservers := setAdd r.webservers (e.webserver.getD "") }
    else r
  let r := { r with tech := (e.tech.getD []).foldl setAdd r.tech }
  let r := { r with ips := (e.a.getD []).foldl setAdd r.ips }
  let portInfo := (mapGet r.ports e.port).getD {}
  let portInfo : PortInfo :=
    { protocol := some (portInfo.protocol.getD "tcp")
      service := some (portInfo.service.getD e.scheme) }
  { r with ports := mapSet r.ports e.port portInfo }

/-- The httpx pass. -/
def httpxStep (m : List (String × HostEntry)) (e : HttpxEntry) :
    List (String × HostEntry) :=
  upsertThen m e.host (httpxUpd e)

/-- One port record of the securitytrails pass: default the accumulated
port info from the reported protocol/service when truthy. -/
def stPortUpd (r : HostEntry) (p : StPort) : HostEntry :=
  let info := (mapGet r.ports p.port).getD {}
  let info :=
    if truthyS p.protocol then
      { info with protocol := some (info.protocol.getD (p.protocol.getD "")) }
    else info
  let info :=
    if truthyS p.service then
      { info with service := some (info.service.getD (p.service.getD "")) }
    else info
  { r with ports := mapSet r.ports p.port info }

/-- The per-record mutation of the securitytrails pass: tagged
organization source and port info defaulting. -/
def stUpd (rec : StRecord) (r : HostEntry) : HostEntry :=
  let r :=
    if truthyS rec.organization then
      { r with sources := setAdd r.sources ("securitytrails:" ++ rec.organization.getD "") }
    else r
  rec.ports.foldl stPortUpd r

/-- The `countryByHost` update of the securitytrails pass (`Map.set`, so a
later record overwrites an earlier one). -/
def stCountryUpd (c : List (String × String)) (rec : StRecord) : List (String × String) :=
  if truthyS rec.country then mapSet c rec.hostname (rec.country.getD "") else c

/-- The securitytrails pass over the host map and the country map. -/
def stStep (s : List (String × HostEntry) × List (String × String)) (rec : StRecord) :
    List (String × HostEntry) × List (String × String) :=
  (upsertThen s.1 rec.hostname (stUpd rec), stCountryUpd s.2 rec)

/-- One `if (inputs.x)` block of `normalizeRecon`: a present, valid
payload is folded over the accumulator, an absent or invalid one
contributes nothing. -/
def phaseFold {ε : Type} (step : List (String × HostEntry) → ε → List (String × HostEntry))
    (o : Option (List ε)) (m : List (String × HostEntry)) : List (String × HostEntry) :=
  match o with
  | none => m
  | some l => l.foldl step m

/-- The `sourcesMeta.push(name)` of one block. -/
def metaAppend {ε : Type} (name : String) (o : Option (List ε)) (meta : List String) :
    List String :=
  match o with
  | none => meta
  | some _ => meta ++ [name]

/-- The securitytrails block over the host-map/country-map pair. -/
def stPhase (o : Option (List StRecord))
    (s : List (String × HostEntry) × List (String × String)) :
    List (String × HostEntry) × List (String × String) :=
  match o with
  | none => s
  | some l => l.foldl stStep s

/-- The accumulation phase of `normalizeRecon` (its four `if` blocks, in
source order), returning the host map, the `countryByHost` map and the
`sourcesMeta` pipeline list. -/
def buildHostMap (inputs : ReconInputs) :
    List (String × HostEntry) × List (String × String) × List String :=
  let m3 :=
    phaseFold httpxStep inputs.httpx
      (phaseFold amassStep inputs.amass (phaseFold subfinderStep inputs.subfinder []))
  let s4 := stPhase inputs.securitytrails (m3, [])
  let meta :=
    metaAppend "securitytrails" inputs.securitytrails
      (metaAppend "httpx" inputs.httpx
        (metaAppend "amass" inputs.amass (metaAppend "subfinder" inputs.subfinder [])))
  (s4.1, s4.2, meta)

/-- One port of the emitted `ReconResult` (protocol defaulted to `tcp`). -/
structure OutPort where
  port : Nat
  protocol : String
  service : Option String
  deriving DecidableEq, Repr

/-- The single provenance entry emitted per host. -/
structure SourceRecord where
  tool : String
  runId : String
  contributors : List String
  pipeline : List String
  deriving DecidableEq, Repr

/-- The emitted canonical host record (`reconResultSchema` fields the
normalizer writes; each `tech` entry is its `{ name }`, the fingerprint
bag is flattened into its `titles`/`webservers`/`country` keys). -/
structure ReconResult where
  targetId : String
  subdomain : String
  ip : Option String
  ports : List OutPort
  tech : List String
  fingerprintTitles : List String
  fingerprintWebservers : List String
  fingerprintCountry : Option String
  sources : List SourceRecord
  isAlive : Bool
  lastChecked : String
  createdAt : String
  updatedAt : String
  tags : List String
  deriving DecidableEq, Repr

/-- The `reconResultBase.parse` constraints that the normalizer's output
can actually violate: each port must be an integer in 1..65535 and each
protocol one of the `serviceProtocols` enum. A violation makes `parse`
throw, aborting `normalizeRecon`. -/
def validOutPort (p : OutPort) : Bool :=
  1 ≤ p.port && p.port ≤ 65535 && (p.protocol == "tcp" || p.protocol == "udp")

/-- The emission phase of `normalizeRecon` for one host entry: project the
accumulator, stamp times, and validate against `reconResultBase`. -/
def emitHost (inputs : ReconInputs) (now stampNow : String) (meta : List String)
    (countries : List (String × String)) (e : HostEntry) : Except String ReconResult :=
  let ports := e.ports.map fun pd =>
    OutPort.mk pd.1 (pd.2.protocol.getD "tcp") pd.2.service
  let result : ReconResult :=
    { targetId := inputs.targetId
      subdomain := e.host
      ip := e.ips.head?
      ports := ports
      tech := e.tech
      fingerprintTitles := e.titles
      fingerprintWebservers := e.webservers
      fingerprintCountry :=
        match mapGet countries e.host with
        | some c => if c ≠ "" then some c else none
        | none => none
      sources := [⟨"recon-normalize", inputs.jobId, e.sources, meta⟩]
      isAlive := e.liveness
      lastChecked := now
      createdAt := stampNow
      updatedAt := stampNow
      tags := [] }
  if ports.all validOutPort then .ok result
  else .error "reconResult validation failed"

/-- The `hostMap.forEach` emission loop: a schema violation throws out of
the whole function (first error wins). -/
def emitAll (f : HostEntry → Except String ReconResult) :
    List HostEntry → Except String (List ReconResult)
  | [] => .ok []
  | e :: rest =>
    match f e with
    | .error msg => .error msg
    | .ok r =>
      match emitAll f rest with
      | .error msg => .error msg
      | .ok rs => .ok (r :: rs)

/-- `normalizeRecon`: accumulate, then emit one record per host in
insertion order. `now` is the timestamp taken at function entry, and
`stampNow` the one taken by `stampMetadata`. -/
def normalizeRecon (inputs : ReconInputs) (now stampNow : String) :
    Except String (List ReconResult) :=
  let (m, countries, meta) := buildHostMap inputs
  emitAll (emitHost inputs now stampNow meta countries) (m.map (·.2))

/-! ## Task scheduler (`runParallelAttacks` / `runParallelRecon`)

Both CLIs run the same worker-pool loop: fill `min(maxConcurrent, N)`
slots, then, while items remain, `Promise.race` the slot promises, and
overwrite the settled slot with a worker for the next item; finally
`Promise.allSettled(workers)` sums the values of the promises left in the
slot array.  The per-item operation is `op : Nat → Option Nat`
(`none` = the promise rejects, caught by the `.catch` handler as `0`).
The only nondeterminism is which in-flight worker settles first; a
schedule `σ` picks, at each loop iteration, the slot whose worker the race
sees settle.  Each worker's `.then`/`.catch` handler — run exactly once,
when its job settles — increments `completed`, adds to `successful`, and
is recorded in `completedLog` in settlement order. -/

/-- The outcome the handlers observe for item `i`: the operation's value,
or `0` when it throws (the `.catch` branch). -/
def itemOutcome (op : Nat → Option Nat) (i : Nat) : Nat := (op i).getD 0

/-- Scheduler state: the item index held by each worker slot, and the
handler bookkeeping. -/
structure PoolState where
  slots : List Nat
  completedLog : List (Nat × Nat)
  completed : Nat
  successful : Nat
  deriving DecidableEq, Repr

/-- JS `arr[k] = v` on the worker array. -/
def listSet (l : List Nat) (k : Nat) (v : Nat) : List Nat :=
  l.set k v

/-- Run one handler for the settled worker in slot `k` holding item `it`. -/
def settleHandler (op : Nat → Option Nat) (s : PoolState) (it : Nat) : PoolState :=
  { s with
    completedLog := s.completedLog ++ [(it, itemOutcome op it)]
    completed := s.completed + 1
    successful := s.successful + itemOutcome op it }

/-- The `while (currentIndex < length)` loop: for each remaining item, the
schedule picks the slot whose worker settles (its handler runs), the race
returns that slot's index, and the slot is overwritten with a worker for
the next item. -/
def poolLoop (op : Nat → Option Nat) : List Nat → List Nat → PoolState → PoolState
  | [], _, s => s
  | item :: rest, σ, s =>
    let choice := σ.headD 0 % s.slots.length
    let settledItem := s.slots.getD choice 0
    let s' := settleHandler op s settledItem
    poolLoop op rest σ.tail { s' with slots := listSet s'.slots choice item }

/-- The whole scheduler: initial batch, replacement loop, then
`Promise.allSettled(workers)` — the still-pending final-slot workers
settle (their handlers run) and *only their* fulfilled values are summed
into the returned aggregate. -/
def runParallelPool (op : Nat → Option Nat) (maxConcurrent n : Nat) (σ : List Nat) :
    PoolState × Nat :=
  let s0 : PoolState :=
    { slots := List.range (min maxConcurrent n)
      completedLog := []
      completed := 0
      successful := 0 }
  let s1 := poolLoop op (List.range' (min maxConcurrent n) (n - min maxConcurrent n)) σ s0
  let finalValues := s1.slots.map (itemOutcome op)
  let s2 : PoolState :=
    { s1 with
      completedLog := s1.completedLog ++ s1.slots.map (fun i => (i, itemOutcome op i))
      completed := s1.completed + s1.slots.length
      successful := s1.successful + finalValues.sum }
  (s2, finalValues.sum)

/-! ## Spec-side characterizations and projections

The `specReported*` functions state the intended merge policy in the
spec's vocabulary — what each source reports for a given host — to be
compared with the accumulator the code builds. -/

/-- The entry the accumulator holds for `h` (fresh hosts start empty). -/
def entryFor (m : List (String × HostEntry)) (h : String) : HostEntry :=
  (mapGet m h).getD { host := h }

/-- IPs subfinder reports for host `h` (truthy `ip` fields). -/
def subIps (o : Option (List SubfinderEntry)) (h : String) : List String :=
  match o with
  | none => []
  | some l =>
    (l.filter (fun e => e.host == h)).filterMap
      (fun e => if truthyS e.ip then some (e.ip.getD "") else none)

/-- Provenance tags subfinder reports for host `h`. -/
def subSources (o : Option (List SubfinderEntry)) (h : String) : List String :=
  match o with
  | none => []
  | some l =>
    (l.filter (fun e => e.host == h)).filterMap
      (fun e => if truthyS e.source then some ("subfinder:" ++ e.source.getD "") else none)

/-- IPs amass reports for host `h` (all node addresses). -/
def amassIps (o : Option (List AmassNode)) (h : String) : List String :=
  match o with
  | none => []
  | some l => ((l.filter (fun e => e.name == h)).map (fun e => e.addresses)).flatten

/-- Provenance tags amass reports for host `h`. -/
def amassSources (o : Option (List AmassNode)) (h : String) : List String :=
  match o with
  | none => []
  | some l =>
    ((l.filter (fun e => e.name == h)).map
      (fun e => e.sources.map (fun src => "amass:" ++ src))).flatten

/-- IPs httpx reports for host `h` (DNS A records). -/
def httpxIps (o : Option (List HttpxEntry)) (h : String) : List String :=
  match o with
  | none => []
  | some l => ((l.filter (fun e => e.host == h)).map (fun e => e.a.getD [])).flatten

/-- Technology names httpx reports for host `h`. -/
def httpxTech (o : Option (List HttpxEntry)) (h : String) : List String :=
  match o with
  | none => []
  | some l => ((l.filter (fun e => e.host == h)).map (fun e => e.tech.getD [])).flatten

/-- Truthy page titles httpx reports for host `h`. -/
def httpxTitles (o : Option (List HttpxEntry)) (h : String) : List String :=
  match o with
  | none => []
  | some l =>
    (l.filter (fun e => e.host == h)).filterMap
      (fun e => if truthyS e.title then some (e.title.getD "") else none)

/-- Truthy webserver banners httpx reports for host `h`. -/
def httpxWebservers (o : Option (List HttpxEntry)) (h : String) : List String :=
  match o with
  | none => []
  | some l =>
    (l.filter (fun e => e.host == h)).filterMap
      (fun e => if truthyS e.webserver then some (e.webserver.getD "") else none)

/-- Liveness httpx observes for host `h`: some response with status < 500. -/
def httpxAlive (o : Option (List HttpxEntry)) (h : String) : Bool :=
  match o with
  | none => false
  | some l => (l.filter (fun e => e.host == h)).any (fun e => decide (e.statusCode < 500))

/-- Provenance tags securitytrails reports for host `h`. -/
def stSources (o : Option (List StRecord)) (h : String) : List String :=
  match o with
  | none => []
  | some l =>
    (l.filter (fun r => r.hostname == h)).filterMap
      (fun r =>
        if truthyS r.organization then some ("securitytrails:" ++ r.organization.getD "")
        else none)

/-- The non-empty countries securitytrails reports for host `h`, in order. -/
def stCountries (o : Option (List StRecord)) (h : String) : List String :=
  match o with
  | none => []
  | some l =>
    (l.filter (fun r => r.hostname == h)).filterMap
      (fun r => if truthyS r.country then some (r.country.getD "") else none)

/-- All IP addresses reported for host `h`, across the three sources that
report IPs. -/
def specReportedIps (inputs : ReconInputs) (h : String) : List String :=
  subIps inputs.subfinder h ++ amassIps inputs.amass h ++ httpxIps inputs.httpx h

/-- All technology names reported for host `h`. -/
def specReportedTech (inputs : ReconInputs) (h : String) : List String :=
  httpxTech inputs.httpx h

/-- All provenance tags reported for host `h`, as `"source:detail"`. -/
def specReportedSources (inputs : ReconInputs) (h : String) : List String :=
  subSources inputs.subfinder h ++ amassSources inputs.amass h ++
    stSources inputs.securitytrails h

/-- All truthy page titles reported for host `h`. -/
def specReportedTitles (inputs : ReconInputs) (h : String) : List String :=
  httpxTitles inputs.httpx h

/-- All truthy webserver banners reported for host `h`. -/
def specReportedWebservers (inputs : ReconInputs) (h : String) : List String :=
  httpxWebservers inputs.httpx h

/-- Observed liveness for host `h`. -/
def specReportedAlive (inputs : ReconInputs) (h : String) : Bool :=
  httpxAlive inputs.httpx h

/-- The last non-empty country reported for host `h`. -/
def specLastCountry (inputs : ReconInputs) (h : String) : Option String :=
  (stCountries inputs.securitytrails h).getLast?

/-- The time-independent fields of an emitted record: everything except
`lastChecked`, `createdAt`, `updatedAt`. -/
def stripTimes (r : ReconResult) :=
  (r.targetId, r.subdomain, r.ip, r.ports, r.tech, r.fingerprintTitles,
   r.fingerprintWebservers, r.fingerprintCountry, r.sources, r.isAlive, r.tags)

/-- The fields of a Finding other than `cves` (enrichment frame). -/
def frameOf (v : Vulnerability) :=
  (v.reconId, v.source, v.title, v.severity, v.confidence, v.status, v.description,
   v.evidence, v.category, v.remediation, v.createdAt, v.updatedAt, v.tags)

/-! ## Concrete fixtures -/

def q95 : ℚ := ⟨19, 2, by decide, by decide⟩

def q01 : ℚ := ⟨1, 10, by decide, by decide⟩

def q98 : ℚ := ⟨49, 5, by decide, by decide⟩

def blankVuln : Vulnerability :=
  { reconId := "recon-1"
    source := "nuclei"
    title := "t"
    severity := .low
    confidence := .suspected
    status := "open"
    description := none
    evidence := none
    cves := []
    category := none
    remediation := none
    createdAt := "T0"
    updatedAt := "T0"
    tags := [] }

def cveIdxNoScore : List CveDetail :=
  [{ id := "CVE-X", baseScore := none, vector := some "V", cpes := [] }]

def cveRefWithScore : CveRef :=
  { id := "CVE-X", cvss := some { baseScore := 5, vector := none, version := some "3.x" } }

def vulnWithScore : Vulnerability := { blankVuln with cves := [cveRefWithScore] }

def d98 : CveDetail := { id := "CVE-2024-0001", baseScore := some q98, vector := some "AV:N", cpes := [] }

def ref98 : CveRef := { id := "CVE-2024-0001", cvss := none }

def mergeCexA : Vulnerability := { blankVuln with reconId := "a:b", source := "c", title := "t" }

def mergeCexB : Vulnerability := { blankVuln with reconId := "a", source := "b:c", title := "t" }

def mergeWitA : Vulnerability := { blankVuln with title := "dup", severity := .low }

def mergeWitB : Vulnerability := { blankVuln with title := "dup", severity := .high }

def nmapCveHost : NmapHost :=
  { host := "h", ports := [{ port := 22, vulners := [{ id := "CVE-2014-0160", cvss := some 5 }] }] }

def nmapCveVuln : Vulnerability :=
  (parseNmapVulnerabilities "recon-1" "job-1" (some nmapCveHost) "T0").headD blankVuln

def fpOpenSSH : TechFingerprint := { name := "OpenSSH" }

def sshCpe : String := "cpe:2.3:a:openbsd:openssh:8.0:*:*:*:*:*:*:*"

def detailOpenSSH : CveDetail := { id := "CVE-2023-1", baseScore := none, vector := none, cpes := [sshCpe] }

def countryCexInputs : ReconInputs :=
  { targetId := "t1"
    primaryTarget := "p"
    jobId := "j"
    securitytrails := some
      [{ hostname := "foo.bar", country := some "US" },
       { hostname := "foo.bar", country := some "DE" }] }

def mergeWitInputs : ReconInputs :=
  { targetId := "t1"
    primaryTarget := "foo.bar"
    jobId := "job-1"
    subfinder := some [{ host := "foo.bar", ip := some "1.2.3.4" }]
    httpx := some
      [{ host := "foo.bar", port := 443, scheme := "https", statusCode := 200,
         tech := some ["nginx"] }] }

def mergeWitEntry : HostEntry := entryFor (buildHostMap mergeWitInputs).1 "foo.bar"

def opC2 : Nat → Option Nat := fun i => if i = 0 then none else some 7

/-! ## Theorems -/

/-- C4 (counterexample): the claim maps an absent score to `info`, but
`severityFromCvss(undefined)` takes the `typeof score !== "number"` branch
and returns `medium`. -/
theorem severityFromCvss_absent_not_info :
    severityFromCvss none = Severity.medium ∧ Severity.medium ≠ Severity.info :=
  ⟨rfl, by decide⟩

/-- C4 (amended): a score ≥ 9 yields `critical`, ≥ 7 yields `high`, ≥ 4
yields `medium`, > 0 yields `low`, a non-positive score yields `info`, and
an *absent* score yields `medium` (not `info`). -/
theorem severityFromCvss_thresholds (s : ℚ) :
    (9 ≤ s → severityFromCvss (some s) = .critical) ∧
    (7 ≤ s → s < 9 → severityFromCvss (some s) = .high) ∧
    (4 ≤ s → s < 7 → severityFromCvss (some s) = .medium) ∧
    (0 < s → s < 4 → severityFromCvss (some s) = .low) ∧
    (s ≤ 0 → severityFromCvss (some s) = .info) ∧
    severityFromCvss none = .medium := by
  refine ⟨?_, ?_, ?_, ?_, ?_, rfl⟩ <;>
    · intros
      simp only [severityFromCvss]
      split_ifs <;> first | rfl | linarith

/-- Witness for C4's amended theorem at the spec's sample scores
9.5, 7.0, 4.0, 0.1, 0. -/
theorem severityFromCvss_thresholds_witness :
    ((9 : ℚ) ≤ q95 ∧ severityFromCvss (some q95) = .critical) ∧
    ((7 : ℚ) ≤ 7 ∧ (7 : ℚ) < 9 ∧ severityFromCvss (some 7) = .high) ∧
    ((4 : ℚ) ≤ 4 ∧ (4 : ℚ) < 7 ∧ severityFromCvss (some 4) = .medium) ∧
    ((0 : ℚ) < q01 ∧ q01 < 4 ∧ severityFromCvss (some q01) = .low) ∧
    ((0 : ℚ) ≤ 0 ∧ severityFromCvss (some 0) = .info) :=
  ⟨⟨by decide, (severityFromCvss_thresholds q95).1 (by decide)⟩,
   ⟨by decide, by decide, (severityFromCvss_thresholds 7).2.1 (by decide) (by decide)⟩,
   ⟨by decide, by decide, (severityFromCvss_thresholds 4).2.2.1 (by decide) (by decide)⟩,
   ⟨by decide, by decide, (severityFromCvss_thresholds q01).2.2.2.1 (by decide) (by decide)⟩,
   ⟨by decide, (severityFromCvss_thresholds 0).2.2.2.2.1 (by decide)⟩⟩

/-- C1 (code bug, evaluated at the failing input): two items, concurrency
limit 1, every job succeeding with value 1.  The scheduler's own handlers
count 2 completions summing to 2, but the returned aggregate — built by
`Promise.allSettled` over the final slot array, in which the first
worker's promise was overwritten — is 1, and only one outcome is
aggregated, not N = 2. -/
theorem runParallelPool_drops_replaced_outcomes :
    (runParallelPool (fun _ => some 1) 1 2 [0]).2 = 1 ∧
    (runParallelPool (fun _ => some 1) 1 2 [0]).1.completed = 2 ∧
    (runParallelPool (fun _ => some 1) 1 2 [0]).1.successful = 2 ∧
    ((List.range 2).map (itemOutcome (fun _ => some 1))).sum = 2 ∧
    ((runParallelPool (fun _ => some 1) 1 2 [0]).1.slots.map (itemOutcome (fun _ => some 1))).length = 1 := by
  decide

/-- C10: enrichment is a pure frame-preserving map — same length, same
order, and every field other than `cves` is returned unchanged. -/
theorem enrichVulnerabilitiesWithNvd_frame (vulns : List Vulnerability)
    (index : List CveDetail) :
    (enrichVulnerabilitiesWithNvd vulns index).length = vulns.length ∧
    (enrichVulnerabilitiesWithNvd vulns index).map frameOf = vulns.map frameOf := by
  refine ⟨by simp [enrichVulnerabilitiesWithNvd], ?_⟩
  simp only [enrichVulnerabilitiesWithNvd, List.map_map]
  induction vulns with
  | nil => rfl
  | cons v rest ih =>
    simp only [List.map_cons, ih, Function.comp_apply]
    congr 1
    simp only [enrichFinding, frameOf]
    split <;> rfl

/-- C5 (counterexample): the index entry for `CVE-X` supplies *no*
numeric base score, yet `enrich` still rewrites the finding's reference
(backfilling the vector), because the `typeof baseScore` guard also
accepts the reference's own score. -/
theorem enrichEntry_backfills_without_index_score :
    (indexGet cveIdxNoScore "CVE-X").map (fun d => d.baseScore) = some none ∧
    enrichVulnerabilitiesWithNvd [vulnWithScore] cveIdxNoScore ≠ [vulnWithScore] := by
  decide

/-- C5 (amended): `enrich` rewrites a CVE reference exactly when the index
holds a matching id and a numeric base score is available from the index
entry *or from the reference itself*; the backfilled score prefers the
index's, the vector prefers the index's and falls back to the
reference's (so a populated field is never replaced by an absent one);
findings without references, or with only unindexed ids, pass through
unchanged. -/
theorem enrichVulnerabilitiesWithNvd_spec (index : List CveDetail) :
    (∀ entry : CveRef, indexGet index entry.id = none → enrichEntry index entry = entry) ∧
    (∀ entry detail, indexGet index entry.id = some detail → detail.baseScore = none →
      entry.cvss = none → enrichEntry index entry = entry) ∧
    (∀ entry detail b, indexGet index entry.id = some detail → detail.baseScore = some b →
      enrichEntry index entry =
        { id := entry.id
          cvss := some
            { baseScore := b
              vector := detail.vector <|> entry.cvss.bind (fun c => c.vector)
              version := some ((entry.cvss.bind (fun c => c.version)).getD "3.x") } }) ∧
    (∀ entry detail c, indexGet index entry.id = some detail → detail.baseScore = none →
      entry.cvss = some c →
      enrichEntry index entry =
        { id := entry.id
          cvss := some
            { baseScore := c.baseScore
              vector := detail.vector <|> c.vector
              version := some (c.version.getD "3.x") } }) ∧
    (∀ entry v, entry.cvss.bind (fun c => c.vector) = some v →
      ((enrichEntry index entry).cvss.bind (fun c => c.vector)).isSome) ∧
    (∀ entry c, entry.cvss = some c →
      ((enrichEntry index entry).cvss.map (fun x => x.baseScore)).isSome) ∧
    (∀ finding : Vulnerability, finding.cves = [] → enrichFinding index finding = finding) ∧
    (∀ finding : Vulnerability, (∀ e ∈ finding.cves, indexGet index e.id = none) →
      enrichFinding index finding = finding) := by
  refine ⟨?_, ?_, ?_, ?_, ?_, ?_, ?_, ?_⟩
  · intro entry h
    simp [enrichEntry, h]
  · intro entry detail h hb hc
    simp [enrichEntry, h, hb, hc]
  · intro entry detail b h hb
    simp [enrichEntry, h, hb, Option.orElse]
  · intro entry detail c h hb hc
    simp [enrichEntry, h, hb, hc, Option.orElse]
  · intro entry v hv
    simp only [enrichEntry]
    cases h : indexGet index entry.id with
    | none => simp [hv]
    | some detail =>
      cases hb : detail.baseScore <|> entry.cvss.map (fun c => c.baseScore) with
      | none => simp [hb, hv]
      | some b =>
        cases hd : detail.vector with
        | none => simp [hb, hd, hv, Option.orElse]
        | some w => simp [hb, hd, Option.orElse]
  · intro entry c hc
    simp only [enrichEntry]
    cases h : indexGet index entry.id with
    | none => simp [hc]
    | some detail =>
      cases hd : detail.baseScore with
      | none => simp [hd, hc, Option.orElse]
      | some b => simp [hd, hc, Option.orElse]
  · intro finding h
    simp [enrichFinding, h]
  · intro finding h
    simp only [enrichFinding]
    split
    · rfl
    · have hmap : finding.cves.map (enrichEntry index) = finding.cves := by
        conv_rhs => rw [← List.map_id finding.cves]
        refine List.map_congr_left ?_
        intro e he
        simp [enrichEntry, h e he]
      rw [hmap]

/-- Witness for C5's amended theorem: the spec's `CVE-2024-0001` example —
index base score 9.8 ends up on the finding's reference. -/
theorem enrichVulnerabilitiesWithNvd_spec_witness :
    indexGet [d98] ref98.id = some d98 ∧ d98.baseScore = some q98 ∧
    enrichEntry [d98] ref98 =
      { id := "CVE-2024-0001"
        cvss := some { baseScore := q98, vector := some "AV:N", version := some "3.x" } } ∧
    (enrichVulnerabilitiesWithNvd [{ blankVuln with cves := [ref98] }] [d98]).map
        (fun v => v.cves.map (fun e => e.cvss.map (fun c => c.baseScore))) =
      [[some q98]] :=
  ⟨by decide, by decide,
   ((enrichVulnerabilitiesWithNvd_spec [d98]).2.2.1 ref98 d98 q98 (by decide)
       (by decide)).trans (by decide),
   by decide⟩

/-- C6 (counterexample): two findings with *different* `(reconId, source,
title)` triples whose `:`-joined key strings collide — `("a:b","c","t")`
vs `("a","b:c","t")` — so `mergeFindings` keeps only the first, not one
per distinct triple. -/
theorem mergeFindings_key_collision :
    mergeFindings [[mergeCexA, mergeCexB]] = [mergeCexA] ∧
    (mergeCexA.reconId, mergeCexA.source, mergeCexA.title) ≠
      (mergeCexB.reconId, mergeCexB.source, mergeCexB.title) := by
  decide

/-- The seen-keys set tracks exactly the keys of the merged list. -/
theorem mergeFold_snd_eq (flat : List Vulnerability) :
    ∀ acc : List Vulnerability × List String, acc.2 = acc.1.map findingKey →
      (flat.foldl mergeStep acc).2 = (flat.foldl mergeStep acc).1.map findingKey := by
  induction flat with
  | nil => exact fun acc h => h
  | cons f rest ih =>
    intro acc h
    refine ih _ ?_
    simp only [mergeStep]
    split
    · exact h
    · simp [h]

/-- The merged list extends the accumulator by a sublist of the input. -/
theorem mergeFold_sublist (flat : List Vulnerability) :
    ∀ acc : List Vulnerability × List String,
      ∃ s, (flat.foldl mergeStep acc).1 = acc.1 ++ s ∧ s.Sublist flat := by
  induction flat with
  | nil => exact fun acc => ⟨[], by simp, List.Sublist.refl []⟩
  | cons f rest ih =>
    intro acc
    simp only [List.foldl_cons, mergeStep]
    split
    · obtain ⟨s, h1, h2⟩ := ih acc
      exact ⟨s, h1, h2.cons f⟩
    · obtain ⟨s, h1, h2⟩ := ih (acc.1 ++ [f], acc.2 ++ [findingKey f])
      exact ⟨f :: s, by simpa using h1, h2.cons₂ f⟩

/-- Seen keys are never dropped by the fold. -/
theorem mergeFold_keys_mono (flat : List Vulnerability) :
    ∀ acc : List Vulnerability × List String, ∀ k, k ∈ acc.2 →
      k ∈ (flat.foldl mergeStep acc).2 := by
  induction flat with
  | nil => exact fun acc k hk => hk
  | cons f rest ih =>
    intro acc k hk
    refine ih _ k ?_
    simp only [mergeStep]
    split
    · exact hk
    · simp [hk]

/-- Every input finding's key ends up in the seen set. -/
theorem mergeFold_mem_keys (flat : List Vulnerability) :
    ∀ acc : List Vulnerability × List String, ∀ f ∈ flat,
      findingKey f ∈ (flat.foldl mergeStep acc).2 := by
  induction flat with
  | nil => intro acc f hf; cases hf
  | cons g rest ih =>
    intro acc f hf
    rcases List.mem_cons.mp hf with rfl | hf
    · simp only [List.foldl_cons]
      refine mergeFold_keys_mono rest _ _ ?_
      simp only [mergeStep]
      split
      · assumption
      · simp
    · exact ih _ f hf

/-- The merged keys stay duplicate-free. -/
theorem mergeFold_nodup (flat : List Vulnerability) :
    ∀ acc : List Vulnerability × List String, acc.2.Nodup →
      (flat.foldl mergeStep acc).2.Nodup := by
  induction flat with
  | nil => exact fun acc h => h
  | cons f rest ih =>
    intro acc h
    refine ih _ ?_
    simp only [mergeStep]
    split
    · exact h
    · next hnot =>
      refine List.Nodup.append h (List.nodup_singleton _) ?_
      intro a ha hb
      rw [List.mem_singleton] at hb
      exact hnot (hb ▸ ha)

/-- Every merged finding that was not already in the accumulator is the
*first* occurrence of its key in the input. -/
theorem mergeFold_first (flat : List Vulnerability) :
    ∀ acc : List Vulnerability × List String, ∀ g ∈ (flat.foldl mergeStep acc).1,
      g ∈ acc.1 ∨
        (flat.find? (fun f => findingKey f == findingKey g) = some g ∧
          findingKey g ∉ acc.2) := by
  induction flat with
  | nil => exact fun acc g hg => Or.inl hg
  | cons f rest ih =>
    intro acc g hg
    simp only [List.foldl_cons] at hg
    by_cases hseen : findingKey f ∈ acc.2
    · have hstep : mergeStep acc f = acc := by simp [mergeStep, hseen]
      rw [hstep] at hg
      rcases ih acc g hg with h | ⟨hfind, hnot⟩
      · exact Or.inl h
      · have hne : (findingKey f == findingKey g) = false := by
          simp only [beq_eq_false_iff_ne, ne_eq]
          intro heq
          exact hnot (heq ▸ hseen)
        exact Or.inr ⟨by simp [List.find?, hne, hfind], hnot⟩
    · have hstep : mergeStep acc f = (acc.1 ++ [f], acc.2 ++ [findingKey f]) := by
        simp [mergeStep, hseen]
      rw [hstep] at hg
      rcases ih _ g hg with h | ⟨hfind, hnot⟩
      · rcases List.mem_append.mp h with h | h
        · exact Or.inl h
        · have hg : g = f := by simpa using h
          subst hg
          exact Or.inr ⟨by simp [List.find?], hseen⟩
      · have hnot2 : findingKey g ∉ acc.2 ∧ findingKey g ≠ findingKey f := by
          constructor
          · intro hmem; exact hnot (by simp [hmem])
          · intro heq; exact hnot (by simp [heq])
        have hne : (findingKey f == findingKey g) = false := by
          simp only [beq_eq_false_iff_ne, ne_eq]
          exact fun heq => hnot2.2 heq.symm
        exact Or.inr ⟨by simp [List.find?, hne, hfind], hnot2.1⟩

/-- C6 (amended): `mergeFindings` keeps, in order, exactly one finding
per distinct *key string* `reconId:source:title` — the first occurrence —
and drops later findings with a duplicate key string silently (distinct
triples may collide when `reconId` or `source` themselves contain `:`). -/
theorem mergeFindings_dedup_first_wins (lists : List (List Vulnerability)) :
    (mergeFindings lists).Sublist lists.flatten ∧
    ((mergeFindings lists).map findingKey).Nodup ∧
    (∀ f ∈ lists.flatten, ∃ g ∈ mergeFindings lists, findingKey g = findingKey f) ∧
    (∀ g ∈ mergeFindings lists,
      lists.flatten.find? (fun f => findingKey f == findingKey g) = some g) := by
  refine ⟨?_, ?_, ?_, ?_⟩
  · obtain ⟨s, h1, h2⟩ := mergeFold_sublist lists.flatten ([], [])
    simpa [mergeFindings, h1] using h2
  · have h := mergeFold_nodup lists.flatten ([], []) (by simp)
    rwa [mergeFold_snd_eq lists.flatten ([], []) rfl] at h
  · intro f hf
    have h := mergeFold_mem_keys lists.flatten ([], []) f hf
    rw [mergeFold_snd_eq lists.flatten ([], []) rfl] at h
    obtain ⟨g, hg, hkey⟩ := List.mem_map.mp h
    exact ⟨g, hg, hkey⟩
  · intro g hg
    rcases mergeFold_first lists.flatten ([], []) g hg with h | ⟨hfind, _⟩
    · cases h
    · exact hfind

/-- Witness for C6's amended theorem: two findings with the same key,
first occurrence retained, the later duplicate dropped. -/
theorem mergeFindings_dedup_first_wins_witness :
    mergeWitA ∈ mergeFindings [[mergeWitA, mergeWitB]] ∧
    [[mergeWitA, mergeWitB]].flatten.find?
        (fun f => findingKey f == findingKey mergeWitA) = some mergeWitA ∧
    findingKey mergeWitB = findingKey mergeWitA ∧
    mergeWitB ∉ mergeFindings [[mergeWitA, mergeWitB]] :=
  ⟨by decide,
   (mergeFindings_dedup_first_wins [[mergeWitA, mergeWitB]]).2.2.2 mergeWitA (by decide),
   by decide, by decide⟩

/-- C7 (counterexample): an nmap/vulners entry whose id *is* an explicit
CVE identifier still yields confidence `suspected`, so "`confirmed`
exactly when the source reports an explicit CVE id" fails. -/
theorem parseNmap_cve_id_not_confirmed :
    ((parseNmapVulnerabilities "recon-1" "job-1" (some nmapCveHost) "T0").map
        (fun v => (v.confidence, v.cves.map (fun e => e.id)))) =
      [(Confidence.suspected, ["CVE-2014-0160"])] ∧
    Confidence.suspected ≠ Confidence.confirmed := by
  decide

/-- C7 (amended): a nuclei-derived finding is `confirmed` exactly when its
record carries a truthy `info.cve` identifier and `needs-review`
otherwise; every nmap/vulners-derived finding is `suspected`, even when
its vulners id is itself a CVE identifier. -/
theorem confidence_assignment (reconId jobId now : String) :
    (∀ data : List NucleiFinding,
      (parseNucleiResults reconId jobId (some data) now).map (fun v => v.confidence) =
        data.map (fun f => if truthyS f.cve then Confidence.confirmed else Confidence.needsReview)) ∧
    (∀ raw : Option NmapHost, ∀ v ∈ parseNmapVulnerabilities reconId jobId raw now,
      v.confidence = Confidence.suspected) := by
  constructor
  · intro data
    simp only [parseNucleiResults, List.map_map]
    refine List.map_congr_left ?_
    intro f _
    simp only [Function.comp_apply, baseVulnerability]
  · intro raw v hv
    match raw with
    | none => cases hv
    | some data =>
      simp only [parseNmapVulnerabilities, List.mem_flatMap, List.mem_map] at hv
      obtain ⟨port, _, entry, _, rfl⟩ := hv
      rfl

/-- Witness for C7's amended theorem: the concrete nmap finding with a CVE
id is in the parser output and is `suspected`. -/
theorem confidence_assignment_witness :
    nmapCveVuln ∈ parseNmapVulnerabilities "recon-1" "job-1" (some nmapCveHost) "T0" ∧
    nmapCveVuln.confidence = Confidence.suspected :=
  ⟨by decide,
   (confidence_assignment "recon-1" "job-1" "T0").2 (some nmapCveHost) nmapCveVuln (by decide)⟩

/-- Folds whose step only ever appends preserve membership. -/
theorem foldl_step_mem_mono {β γ : Type} (g : List γ → β → List γ)
    (hmono : ∀ acc b x, x ∈ acc → x ∈ g acc b) :
    ∀ (l : List β) (acc : List γ) (x : γ), x ∈ acc → x ∈ l.foldl g acc := by
  intro l
  induction l with
  | nil => exact fun acc x hx => hx
  | cons b rest ih => exact fun acc x hx => ih (g acc b) x (hmono acc b x hx)

/-- One CPE step only appends. -/
theorem cpeMatchStep_mono (fp : TechFingerprint) (detail : CveDetail)
    (acc : List (TechFingerprint × CveDetail)) (cpe : String)
    (x : TechFingerprint × CveDetail) (hx : x ∈ acc) : x ∈ cpeMatchStep fp detail acc cpe := by
  simp only [cpeMatchStep]
  split
  · exact hx
  · split
    · exact hx
    · split
      · exact List.mem_append_left _ hx
      · exact hx

/-- The inner CPE fold only appends. -/
theorem suggestForCpes_mono (fp : TechFingerprint) (detail : CveDetail)
    (acc : List (TechFingerprint × CveDetail)) (x : TechFingerprint × CveDetail)
    (hx : x ∈ acc) : x ∈ suggestForCpes fp detail acc :=
  foldl_step_mem_mono (cpeMatchStep fp detail) (cpeMatchStep_mono fp detail) detail.cpes acc x hx

/-- A matching CPE of `detail` puts `(fp, detail)` into the inner fold. -/
theorem suggestForCpes_hit (fp : TechFingerprint) (detail : CveDetail)
    (cpe : String) (hc : cpe ∈ detail.cpes) (vendor : Option String) (product : String)
    (hp : parseCpe cpe = some (vendor, some product))
    (hinc : jsIncludes (jsToLower fp.name) (jsToLower product) = true) :
    ∀ acc, (fp, detail) ∈ suggestForCpes fp detail acc := by
  have key : ∀ (l : List String), cpe ∈ l → ∀ acc,
      (fp, detail) ∈ l.foldl (cpeMatchStep fp detail) acc := by
    intro l
    induction l with
    | nil => intro h; cases h
    | cons c rest ih =>
      intro h acc
      rcases List.mem_cons.mp h with rfl | h
      · simp only [List.foldl_cons]
        refine foldl_step_mem_mono (cpeMatchStep fp detail) (cpeMatchStep_mono fp detail)
          rest _ _ ?_
        simp [cpeMatchStep, hp, hinc]
      · exact ih h _
  exact key detail.cpes hc

/-- C8: completeness of `suggestCvesFromTech` — every (fingerprint, index
entry, CPE) combination whose truthy product token is a case-insensitive
substring of the fingerprint name contributes a candidate pair. -/
theorem suggestCvesFromTech_complete (tech : List TechFingerprint)
    (index : List CveDetail) (fp : TechFingerprint) (detail : CveDetail)
    (cpe : String) (vendor : Option String) (product : String)
    (hfp : fp ∈ tech) (hd : detail ∈ index) (hc : cpe ∈ detail.cpes)
    (hp : parseCpe cpe = some (vendor, some product))
    (hinc : jsIncludes (jsToLower fp.name) (jsToLower product) = true) :
    (fp, detail) ∈ suggestCvesFromTech tech index := by
  have innerMono : ∀ (idx : List CveDetail) acc (x : TechFingerprint × CveDetail)
      (g : TechFingerprint), x ∈ acc →
      x ∈ idx.foldl (fun acc2 d => suggestForCpes g d acc2) acc := by
    intro idx acc x g hx
    exact foldl_step_mem_mono _ (fun a d y hy => suggestForCpes_mono g d a y hy) idx acc x hx
  have innerHit : ∀ (idx : List CveDetail), detail ∈ idx → ∀ acc,
      (fp, detail) ∈ idx.foldl (fun acc2 d => suggestForCpes fp d acc2) acc := by
    intro idx
    induction idx with
    | nil => intro h; cases h
    | cons d rest ih =>
      intro h acc
      rcases List.mem_cons.mp h with rfl | h
      · simp only [List.foldl_cons]
        exact innerMono rest _ _ fp (suggestForCpes_hit fp detail cpe hc vendor product hp hinc acc)
      · exact ih h _
  have outerMono : ∀ (ts : List TechFingerprint) acc (x : TechFingerprint × CveDetail),
      x ∈ acc →
      x ∈ ts.foldl (fun acc g => index.foldl (fun acc2 d => suggestForCpes g d acc2) acc) acc := by
    intro ts acc x hx
    exact foldl_step_mem_mono _ (fun a g y hy => innerMono index a y g hy) ts acc x hx
  have outerHit : ∀ (ts : List TechFingerprint), fp ∈ ts → ∀ acc,
      (fp, detail) ∈
        ts.foldl (fun acc g => index.foldl (fun acc2 d => suggestForCpes g d acc2) acc) acc := by
    intro ts
    induction ts with
    | nil => intro h; cases h
    | cons g rest ih =>
      intro h acc
      rcases List.mem_cons.mp h with rfl | h
      · simp only [List.foldl_cons]
        exact outerMono rest _ _ (innerHit index hd acc)
      · exact ih h _
  exact outerHit tech hfp []

/-- Witness for C8: the spec's `"OpenSSH"` fingerprint against an index
entry with product token `openssh` yields a suggestion pair. -/
theorem suggestCvesFromTech_complete_witness :
    fpOpenSSH ∈ [fpOpenSSH] ∧ detailOpenSSH ∈ [detailOpenSSH] ∧
    sshCpe ∈ detailOpenSSH.cpes ∧
    parseCpe sshCpe = some (some "openbsd", some "openssh") ∧
    jsIncludes (jsToLower fpOpenSSH.name) (jsToLower "openssh") = true ∧
    (fpOpenSSH, detailOpenSSH) ∈ suggestCvesFromTech [fpOpenSSH] [detailOpenSSH] :=
  ⟨by decide, by decide, by decide, by decide, by decide,
   suggestCvesFromTech_complete [fpOpenSSH] [detailOpenSSH] fpOpenSSH detailOpenSSH
     sshCpe (some "openbsd") "openssh" (by decide) (by decide) (by decide) (by decide)
     (by decide)⟩

/-- Overwriting slot `k` moves its occupant out and the new item in, up to
permutation. -/
theorem getD_cons_set_perm (l : List Nat) :
    ∀ k : Nat, k < l.length → ∀ b : Nat,
      List.Perm (l.getD k 0 :: l.set k b) (b :: l) := by
  induction l with
  | nil => intro k hk; simp at hk
  | cons x xs ih =>
    intro k hk b
    cases k with
    | zero => simpa using List.Perm.swap b x xs
    | succ k =>
      have hk' : k < xs.length := by simpa using hk
      have h1 := ih k hk' b
      have t1 : List.Perm (xs.getD k 0 :: x :: xs.set k b) (x :: xs.getD k 0 :: xs.set k b) :=
        List.Perm.swap x (xs.getD k 0) (xs.set k b)
      have t2 : List.Perm (x :: xs.getD k 0 :: xs.set k b) (x :: b :: xs) := h1.cons x
      have t3 : List.Perm (x :: b :: xs) (b :: x :: xs) := List.Perm.swap b x xs
      simpa using t1.trans (t2.trans t3)

/-- The replacement loop never changes the number of slots. -/
theorem poolLoop_slots_length (op : Nat → Option Nat) (rem : List Nat) :
    ∀ (σ : List Nat) (s : PoolState),
      (poolLoop op rem σ s).slots.length = s.slots.length := by
  induction rem with
  | nil => intro σ s; rfl
  | cons item rest ih =>
    intro σ s
    simp only [poolLoop]
    rw [ih]
    simp [listSet, settleHandler]

/-- The loop adds one handler run per dispatched item. -/
theorem poolLoop_completed (op : Nat → Option Nat) (rem : List Nat) :
    ∀ (σ : List Nat) (s : PoolState),
      (poolLoop op rem σ s).completed = s.completed + rem.length := by
  induction rem with
  | nil => intro σ s; simp [poolLoop]
  | cons item rest ih =>
    intro σ s
    simp only [poolLoop]
    rw [ih]
    simp only [settleHandler, List.length_cons]
    omega

/-- Every entry the handlers log carries that item's caught outcome. -/
theorem poolLoop_log_outcomes (op : Nat → Option Nat) (rem : List Nat) :
    ∀ (σ : List Nat) (s : PoolState),
      (∀ p ∈ s.completedLog, p.2 = itemOutcome op p.1) →
      ∀ p ∈ (poolLoop op rem σ s).completedLog, p.2 = itemOutcome op p.1 := by
  induction rem with
  | nil => intro σ s h; exact h
  | cons item rest ih =>
    intro σ s h
    refine ih σ.tail _ ?_
    intro p hp
    simp only [settleHandler, List.mem_append, List.mem_singleton] at hp
    rcases hp with hp | rfl
    · exact h p hp
    · rfl

/-- The items logged so far together with the items still occupying
slots are exactly the items dispatched so far. -/
theorem poolLoop_perm (op : Nat → Option Nat) (rem : List Nat) :
    ∀ (σ : List Nat) (s : PoolState), 0 < s.slots.length →
      List.Perm
        ((poolLoop op rem σ s).completedLog.map Prod.fst ++ (poolLoop op rem σ s).slots)
        (s.completedLog.map Prod.fst ++ s.slots ++ rem) := by
  induction rem with
  | nil =>
    intro σ s _
    simp only [poolLoop, List.append_nil]
    exact List.Perm.refl _
  | cons item rest ih =>
    intro σ s hs
    have hchoice : σ.headD 0 % s.slots.length < s.slots.length := Nat.mod_lt _ hs
    simp only [poolLoop]
    refine List.Perm.trans (ih σ.tail _ ?_) ?_
    · simpa [settleHandler, listSet] using hs
    · simp only [settleHandler, listSet, List.map_append, List.map_cons, List.map_nil]
      have hperm := getD_cons_set_perm s.slots (σ.headD 0 % s.slots.length) hchoice item
      have hstep :
          List.Perm
            ((s.slots.getD (σ.headD 0 % s.slots.length) 0 ::
                s.slots.set (σ.headD 0 % s.slots.length) item) ++ rest)
            ((item :: s.slots) ++ rest) :=
        hperm.append_right rest
      have hmid : List.Perm ((item :: s.slots) ++ rest) (s.slots ++ item :: rest) := by
        simpa using (@List.perm_middle _ item s.slots rest).symm
      have hcomb := (hstep.trans hmid).append_left (s.completedLog.map Prod.fst)
      simpa [List.append_assoc] using hcomb

/-- C2: failure isolation and completeness of the worker pool — every
batch settles every dispatched item exactly once before the scheduler
returns, each logged outcome is the item's own operation result with a
throw caught as `0`, the `completed` counter reaches N, and a throwing
item is itself logged with outcome `0` without aborting any sibling. -/
theorem runParallelPool_failure_isolation (op : Nat → Option Nat) (C N : Nat)
    (σ : List Nat) (hC : 1 ≤ C) :
    (runParallelPool op C N σ).1.completed = N ∧
    List.Perm ((runParallelPool op C N σ).1.completedLog.map Prod.fst) (List.range N) ∧
    (∀ p ∈ (runParallelPool op C N σ).1.completedLog, p.2 = itemOutcome op p.1) ∧
    (∀ i < N, op i = none → (i, 0) ∈ (runParallelPool op C N σ).1.completedLog) := by
  have hmin : min C N ≤ N := Nat.min_le_right C N
  rcases Nat.eq_zero_or_pos N with rfl | hN
  · refine ⟨?_, ?_, ?_, ?_⟩ <;> simp [runParallelPool, poolLoop]
  · have hpos : 0 < min C N := lt_min_iff.mpr ⟨hC, hN⟩
    set s0 : PoolState :=
      { slots := List.range (min C N), completedLog := [], completed := 0, successful := 0 }
      with hs0
    have hs0len : 0 < s0.slots.length := by simp [hs0, hpos]
    set s1 := poolLoop op (List.range' (min C N) (N - min C N)) σ s0 with hs1
    have hlen1 : s1.slots.length = min C N := by
      rw [hs1, poolLoop_slots_length]; simp [hs0]
    have hcomp1 : s1.completed = N - min C N := by
      rw [hs1, poolLoop_completed]; simp [hs0]
    have hout1 : ∀ p ∈ s1.completedLog, p.2 = itemOutcome op p.1 := by
      rw [hs1]
      exact poolLoop_log_outcomes op _ σ s0 (by simp [hs0])
    have hperm1 :
        List.Perm (s1.completedLog.map Prod.fst ++ s1.slots)
          (List.range (min C N) ++ List.range' (min C N) (N - min C N)) := by
      have := poolLoop_perm op (List.range' (min C N) (N - min C N)) σ s0 hs0len
      simpa [hs0] using this
    have hrange :
        List.range (min C N) ++ List.range' (min C N) (N - min C N) = List.range N := by
      rw [List.range_eq_range', List.range_eq_range']
      have := List.range'_append_1 0 (min C N) (N - min C N)
      have h2 : min C N + (N - min C N) = N := by omega
      simpa [Nat.add_comm, h2] using this
    have hlog2 :
        (runParallelPool op C N σ).1.completedLog =
          s1.completedLog ++ s1.slots.map (fun i => (i, itemOutcome op i)) := rfl
    have hmapfst :
        (runParallelPool op C N σ).1.completedLog.map Prod.fst =
          s1.completedLog.map Prod.fst ++ s1.slots := by
      rw [hlog2, List.map_append, List.map_map]
      have h5 : s1.slots.map (Prod.fst ∘ fun i => (i, itemOutcome op i)) = s1.slots.map id :=
        List.map_congr_left (fun a _ => rfl)
      rw [h5, List.map_id]
    refine ⟨?_, ?_, ?_, ?_⟩
    · show s1.completed + s1.slots.length = N
      rw [hlen1, hcomp1]
      omega
    · rw [hmapfst]
      exact hperm1.trans (hrange ▸ List.Perm.refl _)
    · intro p hp
      rw [hlog2] at hp
      rcases List.mem_append.mp hp with hp | hp
      · exact hout1 p hp
      · obtain ⟨i, _, rfl⟩ := List.mem_map.mp hp
        rfl
    · intro i hi hnone
      have hrangei : i ∈ List.range N := List.mem_range.mpr hi
      have hmemf : i ∈ (runParallelPool op C N σ).1.completedLog.map Prod.fst := by
        rw [hmapfst]
        exact (hperm1.trans (hrange ▸ List.Perm.refl _)).mem_iff.mpr hrangei
      obtain ⟨p, hp, hfst⟩ := List.mem_map.mp hmemf
      have hsnd : p.2 = itemOutcome op p.1 := by
        rw [hlog2] at hp
        rcases List.mem_append.mp hp with hp' | hp'
        · exact hout1 p hp'
        · obtain ⟨j, _, rfl⟩ := List.mem_map.mp hp'
          rfl
      have hp2 : p = (i, 0) := by
        have hz : p.2 = 0 := by rw [hsnd, hfst, itemOutcome, hnone]; rfl
        exact Prod.ext hfst hz
      exact hp2 ▸ hp

/-- Witness for C2 at a concrete batch: three items, one slot, the first
item's operation throwing. -/
theorem runParallelPool_failure_isolation_witness :
    1 ≤ 1 ∧
    (runParallelPool opC2 1 3 [0, 0]).1.completed = 3 ∧
    List.Perm ((runParallelPool opC2 1 3 [0, 0]).1.completedLog.map Prod.fst)
      (List.range 3) ∧
    (opC2 0 = none ∧ (0, 0) ∈ (runParallelPool opC2 1 3 [0, 0]).1.completedLog) :=
  ⟨by decide,
   (runParallelPool_failure_isolation opC2 1 3 [0, 0] (by decide)).1,
   (runParallelPool_failure_isolation opC2 1 3 [0, 0] (by decide)).2.1,
   by decide,
   (runParallelPool_failure_isolation opC2 1 3 [0, 0] (by decide)).2.2.2 0 (by decide)
     (by decide)⟩

/-- Emission of one host differs between two clock readings only in the
stripped time fields. -/
theorem emitHost_time_congr (inputs : ReconInputs) (meta : List String)
    (countries : List (String × String)) (e : HostEntry) (now1 snow1 now2 snow2 : String) :
    (emitHost inputs now1 snow1 meta countries e).map stripTimes =
    (emitHost inputs now2 snow2 meta countries e).map stripTimes := by
  simp only [emitHost]
  split
  · simp [Except.map, stripTimes]
  · rfl

/-- `emitAll` is congruent under pointwise agreement modulo `stripTimes`. -/
theorem emitAll_congr (f g : HostEntry → Except String ReconResult)
    (h : ∀ e, (f e).map stripTimes = (g e).map stripTimes) :
    ∀ l : List HostEntry,
      (emitAll f l).map (fun rs => rs.map stripTimes) =
      (emitAll g l).map (fun rs => rs.map stripTimes) := by
  intro l
  induction l with
  | nil => rfl
  | cons e rest ih =>
    have he := h e
    simp only [emitAll]
    cases hf : f e with
    | error msg =>
      rw [hf] at he
      cases hg : g e with
      | error m2 =>
        rw [hg] at he
        simp only [Except.map] at he
        cases he
        rfl
      | ok r2 =>
        rw [hg] at he
        simp [Except.map] at he
    | ok r =>
      rw [hf] at he
      cases hg : g e with
      | error m2 =>
        rw [hg] at he
        simp [Except.map] at he
      | ok r2 =>
        rw [hg] at he
        simp only [Except.map, Except.ok.injEq] at he
        cases h1 : emitAll f rest with
        | error m =>
          have h2 : emitAll g rest = .error m := by
            have hih := ih
            rw [h1] at hih
            cases h3 : emitAll g rest with
            | error m2 =>
              rw [h3] at hih
              simp only [Except.map] at hih
              cases hih
              rfl
            | ok rs => rw [h3] at hih; simp [Except.map] at hih
          rw [h2]
        | ok rs =>
          have hex : ∃ rs2, emitAll g rest = .ok rs2 ∧ rs.map stripTimes = rs2.map stripTimes := by
            have hih := ih
            rw [h1] at hih
            cases h3 : emitAll g rest with
            | error m2 => rw [h3] at hih; simp [Except.map] at hih
            | ok rs2 =>
              rw [h3] at hih
              simp only [Except.map, Except.ok.injEq] at hih
              exact ⟨rs2, rfl, hih⟩
          obtain ⟨rs2, h4, h5⟩ := hex
          rw [h4]
          simp only [Except.map, Except.ok.injEq, List.map_cons]
          rw [he, h5]

/-- C9: the Result Normalizer is deterministic on identical source inputs —
two runs (whose clock readings may differ) produce the same hosts, in the
same order, with the same IPs, ports, technologies, liveness,
fingerprints and provenance; only the timestamp fields can differ. -/
theorem normalizeRecon_deterministic (inputs : ReconInputs)
    (now1 snow1 now2 snow2 : String) :
    (normalizeRecon inputs now1 snow1).map (fun rs => rs.map stripTimes) =
    (normalizeRecon inputs now2 snow2).map (fun rs => rs.map stripTimes) := by
  rcases hbm : buildHostMap inputs with ⟨m, countries, meta⟩
  simp only [normalizeRecon, hbm]
  exact emitAll_congr _ _
    (fun e => emitHost_time_congr inputs meta countries e now1 snow1 now2 snow2) _

/-- Membership in a JS-set add. -/
theorem mem_setAdd (xs : List String) (y x : String) :
    x ∈ setAdd xs y ↔ x ∈ xs ∨ x = y := by
  unfold setAdd
  split
  · next hy =>
    constructor
    · exact Or.inl
    · rintro (h | rfl)
      · exact h
      · exact hy
  · simp [List.mem_append]

/-- Membership after folding a list into a JS set. -/
theorem mem_foldl_setAdd (l : List String) :
    ∀ (xs : List String) (x : String), x ∈ l.foldl setAdd xs ↔ x ∈ xs ∨ x ∈ l := by
  induction l with
  | nil => simp
  | cons a rest ih =>
    intro xs x
    simp only [List.foldl_cons, ih, mem_setAdd, List.mem_cons]
    tauto

/-- Membership after folding a mapped list into a JS set. -/
theorem mem_foldl_setAdd_map (g : String → String) (l : List String) :
    ∀ (xs : List String) (x : String),
      x ∈ l.foldl (fun acc s => setAdd acc (g s)) xs ↔ x ∈ xs ∨ x ∈ l.map g := by
  induction l with
  | nil => simp
  | cons a rest ih =>
    intro xs x
    simp only [List.foldl_cons, ih, mem_setAdd, List.map_cons, List.mem_cons]
    tauto

/-- Looking up the rewritten key after a value-replacing map. -/
theorem mapGet_updateVal_eq {α : Type} (hkey : String) (f : α → α) (m : List (String × α)) :
    mapGet (m.map (fun p => if p.1 == hkey then (p.1, f p.2) else p)) hkey =
      (mapGet m hkey).map f := by
  induction m with
  | nil => rfl
  | cons p rest ih =>
    simp only [List.map_cons]
    by_cases hp : p.1 = hkey
    · have h1 : (p.1 == hkey) = true := by simpa using hp
      rw [if_pos h1]
      simp [mapGet, List.find?_cons, h1]
    · have h1 : (p.1 == hkey) = false := by simpa using hp
      rw [if_neg (by simp [h1])]
      simp only [mapGet, List.find?_cons, h1] at ih ⊢
      exact ih

/-- Looking up another key after a value-replacing map. -/
theorem mapGet_updateVal_ne {α : Type} (hkey h' : String) (f : α → α)
    (m : List (String × α)) (hne : h' ≠ hkey) :
    mapGet (m.map (fun p => if p.1 == hkey then (p.1, f p.2) else p)) h' = mapGet m h' := by
  induction m with
  | nil => rfl
  | cons p rest ih =>
    simp only [List.map_cons]
    by_cases hp : p.1 = hkey
    · have h1 : (p.1 == hkey) = true := by simpa using hp
      have hph : (p.1 == h') = false := by
        simp only [beq_eq_false_iff_ne, ne_eq]
        intro h
        exact hne (h ▸ hp)
      rw [if_pos h1]
      simp only [mapGet, List.find?_cons, hph] at ih ⊢
      exact ih
    · have h1 : (p.1 == hkey) = false := by simpa using hp
      rw [if_neg (by simp [h1])]
      by_cases hph : p.1 = h'
      · have h2 : (p.1 == h') = true := by simpa using hph
        simp [mapGet, List.find?_cons, h2]
      · have h2 : (p.1 == h') = false := by simpa using hph
        simp only [mapGet, List.find?_cons, h2] at ih ⊢
        exact ih

/-- Looking up a key after appending a single binding. -/
theorem mapGet_append_single {α : Type} (m : List (String × α)) (k : String) (v : α)
    (k' : String) :
    mapGet (m ++ [(k, v)]) k' =
      match mapGet m k' with
      | some x => some x
      | none => if k' = k then some v else none := by
  induction m with
  | nil =>
    simp only [List.nil_append, mapGet, List.find?]
    by_cases h : k = k'
    · simp [h, beq_iff_eq]
    · simp [show (k == k') = false by simpa using h, show ¬ (k' = k) by exact fun hh => h hh.symm]
  | cons p rest ih =>
    by_cases hp : p.1 = k'
    · simp [mapGet, List.find?, hp]
    · simp only [mapGet, List.cons_append, List.find?,
        show (p.1 == k') = false by simpa using hp] at ih ⊢
      exact ih

/-- Looking up the written key after a `Map.set`-style replacement map. -/
theorem mapGet_replaceAll_eq {α : Type} (k : String) (v : α) (m : List (String × α)) :
    mapGet (m.map (fun p => if p.1 == k then (k, v) else p)) k =
      (mapGet m k).map (fun _ => v) := by
  induction m with
  | nil => rfl
  | cons p rest ih =>
    simp only [List.map_cons]
    by_cases hp : p.1 = k
    · have h1 : (p.1 == k) = true := by simpa using hp
      rw [if_pos h1]
      simp [mapGet, List.find?_cons, h1]
    · have h1 : (p.1 == k) = false := by simpa using hp
      rw [if_neg (by simp [h1])]
      simp only [mapGet, List.find?_cons, h1] at ih ⊢
      exact ih

/-- Looking up another key after a `Map.set`-style replacement map. -/
theorem mapGet_replaceAll_ne {α : Type} (k h' : String) (v : α) (m : List (String × α))
    (hne : h' ≠ k) :
    mapGet (m.map (fun p => if p.1 == k then (k, v) else p)) h' = mapGet m h' := by
  induction m with
  | nil => rfl
  | cons p rest ih =>
    simp only [List.map_cons]
    by_cases hp : p.1 = k
    · have h1 : (p.1 == k) = true := by simpa using hp
      have hph : (p.1 == h') = false := by
        simp only [beq_eq_false_iff_ne, ne_eq]
        intro h
        exact hne (h ▸ hp)
      have hkh : (k == h') = false := by
        simp only [beq_eq_false_iff_ne, ne_eq]
        exact fun h => hne h.symm
      rw [if_pos h1]
      simp only [mapGet, List.find?_cons, hph, hkh] at ih ⊢
      exact ih
    · have h1 : (p.1 == k) = false := by simpa using hp
      rw [if_neg (by simp [h1])]
      by_cases hph : p.1 = h'
      · have h2 : (p.1 == h') = true := by simpa using hph
        simp [mapGet, List.find?_cons, h2]
      · have h2 : (p.1 == h') = false := by simpa using hph
        simp only [mapGet, List.find?_cons, h2] at ih ⊢
        exact ih

/-- The JS `Map.set` lookup law. -/
theorem mapGet_mapSet {α : Type} (m : List (String × α)) (k : String) (v : α)
    (k' : String) :
    mapGet (mapSet m k v) k' = if k' = k then some v else mapGet m k' := by
  unfold mapSet
  cases hmk : mapGet m k with
  | some b =>
    by_cases hk : k' = k
    · subst hk
      rw [mapGet_replaceAll_eq, hmk, if_pos rfl]
      rfl
    · rw [mapGet_replaceAll_ne k k' v m hk, if_neg hk]
  | none =>
    rw [mapGet_append_single]
    by_cases hk : k' = k
    · subst hk
      rw [hmk]
    · cases hmk' : mapGet m k' with
      | some x => simp [hk]
      | none => simp [hk]

/-- The `upsertHost`-then-mutate lookup law. -/
theorem mapGet_upsertThen (m : List (String × HostEntry)) (h : String)
    (f : HostEntry → HostEntry) (h' : String) :
    mapGet (upsertThen m h f) h' =
      if h' = h then some (f (entryFor m h)) else mapGet m h' := by
  unfold upsertThen
  cases hmk : mapGet m h with
  | some b =>
    by_cases hk : h' = h
    · subst hk
      rw [mapGet_updateVal_eq, hmk]
      simp [entryFor, hmk]
    · rw [mapGet_updateVal_ne h h' f m hk, if_neg hk]
  | none =>
    rw [mapGet_append_single]
    by_cases hk : h' = h
    · subst hk
      rw [hmk]
      simp [entryFor, hmk]
    · cases hmk' : mapGet m h' with
      | some x => simp [hk]
      | none => simp [hk]

/-- `entryFor` after an upsert. -/
theorem entryFor_upsertThen (m : List (String × HostEntry)) (h : String)
    (f : HostEntry → HostEntry) (h' : String) :
    entryFor (upsertThen m h f) h' =
      if h' = h then f (entryFor m h) else entryFor m h' := by
  unfold entryFor
  rw [mapGet_upsertThen]
  by_cases hk : h' = h
  · subst hk
    rw [if_pos rfl, if_pos rfl]
    rfl
  · rw [if_neg hk, if_neg hk]

/-- The accumulator entry for `h` after one whole upsert pass is the fold
of the per-entry mutations of exactly the records keyed to `h`. -/
theorem entryFor_foldl_upsert {ε : Type} (key : ε → String)
    (upd : ε → HostEntry → HostEntry) (l : List ε) :
    ∀ (m : List (String × HostEntry)) (h : String),
      entryFor (l.foldl (fun acc e => upsertThen acc (key e) (upd e)) m) h =
        (l.filter (fun e => key e == h)).foldl (fun r e => upd e r) (entryFor m h) := by
  induction l with
  | nil => intro m h; rfl
  | cons e rest ih =>
    intro m h
    simp only [List.foldl_cons, List.filter_cons]
    by_cases hk : key e = h
    · rw [if_pos (by simpa using hk), ih, entryFor_upsertThen, if_pos hk.symm, hk]
      rfl
    · rw [if_neg (by simpa using hk), ih, entryFor_upsertThen,
        if_neg (fun hh => hk hh.symm)]

/-- Field effect of one subfinder entry on a host entry. -/
theorem subfinderUpd_fields (e : SubfinderEntry) (r : HostEntry) :
    (subfinderUpd e r).host = r.host ∧ (subfinderUpd e r).tech = r.tech ∧
    (subfinderUpd e r).titles = r.titles ∧ (subfinderUpd e r).webservers = r.webservers ∧
    (subfinderUpd e r).liveness = r.liveness ∧ (subfinderUpd e r).ports = r.ports ∧
    (subfinderUpd e r).ips =
      (if truthyS e.ip then setAdd r.ips (e.ip.getD "") else r.ips) ∧
    (subfinderUpd e r).sources =
      (if truthyS e.source then setAdd r.sources ("subfinder:" ++ e.source.getD "")
       else r.sources) := by
  unfold subfinderUpd
  by_cases h1 : truthyS e.ip = true <;> by_cases h2 : truthyS e.source = true <;>
    simp [h1, h2]

/-- Fields of a host entry after a whole subfinder pass. -/
theorem subfinderUpd_fold (fl : List SubfinderEntry) :
    ∀ r : HostEntry,
      ((fl.foldl (fun r e => subfinderUpd e r) r).host = r.host) ∧
      ((fl.foldl (fun r e => subfinderUpd e r) r).tech = r.tech) ∧
      ((fl.foldl (fun r e => subfinderUpd e r) r).titles = r.titles) ∧
      ((fl.foldl (fun r e => subfinderUpd e r) r).webservers = r.webservers) ∧
      ((fl.foldl (fun r e => subfinderUpd e r) r).liveness = r.liveness) ∧
      ((fl.foldl (fun r e => subfinderUpd e r) r).ports = r.ports) ∧
      (∀ x, x ∈ (fl.foldl (fun r e => subfinderUpd e r) r).ips ↔
        x ∈ r.ips ∨
          x ∈ fl.filterMap (fun e => if truthyS e.ip then some (e.ip.getD "") else none)) ∧
      (∀ s, s ∈ (fl.foldl (fun r e => subfinderUpd e r) r).sources ↔
        s ∈ r.sources ∨
          s ∈ fl.filterMap
            (fun e =>
              if truthyS e.source then some ("subfinder:" ++ e.source.getD "") else none)) := by
  induction fl with
  | nil => simp
  | cons e rest ih =>
    intro r
    simp only [List.foldl_cons, List.filterMap_cons]
    obtain ⟨hh, ht, htt, hw, hl, hp, hi, hs⟩ := ih (subfinderUpd e r)
    obtain ⟨eh, et, ett, ew, el, ep, ei, es⟩ := subfinderUpd_fields e r
    refine ⟨hh.trans eh, ht.trans et, htt.trans ett, hw.trans ew, hl.trans el,
      hp.trans ep, ?_, ?_⟩
    · intro x
      rw [hi x, ei]
      by_cases h1 : truthyS e.ip = true
      · simp only [h1, if_pos, mem_setAdd, List.mem_cons]
        tauto
      · simp [h1]
    · intro s
      rw [hs s, es]
      by_cases h2 : truthyS e.source = true
      · simp only [h2, if_pos, mem_setAdd, List.mem_cons]
        tauto
      · simp [h2]

/-- Field effect of one amass node on a host entry. -/
theorem amassUpd_fields (e : AmassNode) (r : HostEntry) :
    (amassUpd e r).host = r.host ∧ (amassUpd e r).tech = r.tech ∧
    (amassUpd e r).titles = r.titles ∧ (amassUpd e r).webservers = r.webservers ∧
    (amassUpd e r).liveness = r.liveness ∧ (amassUpd e r).ports = r.ports ∧
    (amassUpd e r).ips = e.addresses.foldl setAdd r.ips ∧
    (amassUpd e r).sources =
      e.sources.foldl (fun acc src => setAdd acc ("amass:" ++ src)) r.sources := by
  unfold amassUpd
  simp

/-- Fields of a host entry after a whole amass pass. -/
theorem amassUpd_fold (fl : List AmassNode) :
    ∀ r : HostEntry,
      ((fl.foldl (fun r e => amassUpd e r) r).host = r.host) ∧
      ((fl.foldl (fun r e => amassUpd e r) r).tech = r.tech) ∧
      ((fl.foldl (fun r e => amassUpd e r) r).titles = r.titles) ∧
      ((fl.foldl (fun r e => amassUpd e r) r).webservers = r.webservers) ∧
      ((fl.foldl (fun r e => amassUpd e r) r).liveness = r.liveness) ∧
      ((fl.foldl (fun r e => amassUpd e r) r).ports = r.ports) ∧
      (∀ x, x ∈ (fl.foldl (fun r e => amassUpd e r) r).ips ↔
        x ∈ r.ips ∨ x ∈ (fl.map (fun e => e.addresses)).flatten) ∧
      (∀ s, s ∈ (fl.foldl (fun r e => amassUpd e r) r).sources ↔
        s ∈ r.sources ∨
          s ∈ (fl.map (fun e => e.sources.map (fun src => "amass:" ++ src))).flatten) := by
  induction fl with
  | nil => simp
  | cons e rest ih =>
    intro r
    simp only [List.foldl_cons, List.map_cons, List.flatten_cons]
    obtain ⟨hh, ht, htt, hw, hl, hp, hi, hs⟩ := ih (amassUpd e r)
    obtain ⟨eh, et, ett, ew, el, ep, ei, es⟩ := amassUpd_fields e r
    refine ⟨hh.trans eh, ht.trans et, htt.trans ett, hw.trans ew, hl.trans el,
      hp.trans ep, ?_, ?_⟩
    · intro x
      rw [hi x, ei, mem_foldl_setAdd, List.mem_append]
      tauto
    · intro s
      rw [hs s, es, mem_foldl_setAdd_map, List.mem_append]
      tauto

/-- Field effect of one httpx entry on a host entry. -/
theorem httpxUpd_fields (e : HttpxEntry) (r : HostEntry) :
    (httpxUpd e r).host = r.host ∧
    (httpxUpd e r).sources = r.sources ∧
    (httpxUpd e r).liveness = (r.liveness || decide (e.statusCode < 500)) ∧
    (httpxUpd e r).titles =
      (if truthyS e.title then setAdd r.titles (e.title.getD "") else r.titles) ∧
    (httpxUpd e r).webservers =
      (if truthyS e.webserver then setAdd r.webservers (e.webserver.getD "")
       else r.webservers) ∧
    (httpxUpd e r).tech = (e.tech.getD []).foldl setAdd r.tech ∧
    (httpxUpd e r).ips = (e.a.getD []).foldl setAdd r.ips := by
  unfold httpxUpd
  by_cases h1 : truthyS e.title = true <;> by_cases h2 : truthyS e.webserver = true <;>
    simp [h1, h2]

/-- Fields of a host entry after a whole httpx pass. -/
theorem httpxUpd_fold (fl : List HttpxEntry) :
    ∀ r : HostEntry,
      ((fl.foldl (fun r e => httpxUpd e r) r).host = r.host) ∧
      ((fl.foldl (fun r e => httpxUpd e r) r).sources = r.sources) ∧
      ((fl.foldl (fun r e => httpxUpd e r) r).liveness =
        (r.liveness || fl.any (fun e => decide (e.statusCode < 500)))) ∧
      (∀ t, t ∈ (fl.foldl (fun r e => httpxUpd e r) r).titles ↔
        t ∈ r.titles ∨
          t ∈ fl.filterMap (fun e => if truthyS e.title then some (e.title.getD "") else none)) ∧
      (∀ w, w ∈ (fl.foldl (fun r e => httpxUpd e r) r).webservers ↔
        w ∈ r.webservers ∨
          w ∈ fl.filterMap
            (fun e => if truthyS e.webserver then some (e.webserver.getD "") else none)) ∧
      (∀ t, t ∈ (fl.foldl (fun r e => httpxUpd e r) r).tech ↔
        t ∈ r.tech ∨ t ∈ (fl.map (fun e => e.tech.getD [])).flatten) ∧
      (∀ x, x ∈ (fl.foldl (fun r e => httpxUpd e r) r).ips ↔
        x ∈ r.ips ∨ x ∈ (fl.map (fun e => e.a.getD [])).flatten) := by
  induction fl with
  | nil => simp
  | cons e rest ih =>
    intro r
    simp only [List.foldl_cons, List.filterMap_cons, List.map_cons, List.flatten_cons,
      List.any_cons]
    obtain ⟨hh, hs, hl, htt, hw, ht, hi⟩ := ih (httpxUpd e r)
    obtain ⟨eh, es, el, ett, ew, et, ei⟩ := httpxUpd_fields e r
    refine ⟨hh.trans eh, hs.trans es, ?_, ?_, ?_, ?_, ?_⟩
    · rw [hl, el, Bool.or_assoc]
    · intro t
      rw [htt t, ett]
      by_cases h1 : truthyS e.title = true
      · simp only [h1, if_pos, mem_setAdd, List.mem_cons]
        tauto
      · simp [h1]
    · intro w
      rw [hw w, ew]
      by_cases h2 : truthyS e.webserver = true
      · simp only [h2, if_pos, mem_setAdd, List.mem_cons]
        tauto
      · simp [h2]
    · intro t
      rw [ht t, et, mem_foldl_setAdd, List.mem_append]
      tauto
    · intro x
      rw [hi x, ei, mem_foldl_setAdd, List.mem_append]
      tauto

/-- One securitytrails port record touches only the `ports` field. -/
theorem stPortUpd_frame (r : HostEntry) (p : StPort) :
    (stPortUpd r p).host = r.host ∧ (stPortUpd r p).ips = r.ips ∧
    (stPortUpd r p).tech = r.tech ∧ (stPortUpd r p).sources = r.sources ∧
    (stPortUpd r p).titles = r.titles ∧ (stPortUpd r p).webservers = r.webservers ∧
    (stPortUpd r p).liveness = r.liveness := by
  unfold stPortUpd
  simp

/-- The securitytrails ports fold touches only the `ports` field. -/
theorem stPortsFold_frame (ps : List StPort) :
    ∀ r : HostEntry,
      ((ps.foldl stPortUpd r).host = r.host) ∧ ((ps.foldl stPortUpd r).ips = r.ips) ∧
      ((ps.foldl stPortUpd r).tech = r.tech) ∧
      ((ps.foldl stPortUpd r).sources = r.sources) ∧
      ((ps.foldl stPortUpd r).titles = r.titles) ∧
      ((ps.foldl stPortUpd r).webservers = r.webservers) ∧
      ((ps.foldl stPortUpd r).liveness = r.liveness) := by
  induction ps with
  | nil => simp
  | cons p rest ih =>
    intro r
    simp only [List.foldl_cons]
    obtain ⟨hh, hi, ht, hs, htt, hw, hl⟩ := ih (stPortUpd r p)
    obtain ⟨ph, pi, pt, ps', ptt, pw, pl⟩ := stPortUpd_frame r p
    exact ⟨hh.trans ph, hi.trans pi, ht.trans pt, hs.trans ps', htt.trans ptt,
      hw.trans pw, hl.trans pl⟩

/-- Field effect of one securitytrails record on a host entry. -/
theorem stUpd_fields (rec : StRecord) (r : HostEntry) :
    (stUpd rec r).host = r.host ∧ (stUpd rec r).ips = r.ips ∧
    (stUpd rec r).tech = r.tech ∧ (stUpd rec r).titles = r.titles ∧
    (stUpd rec r).webservers = r.webservers ∧ (stUpd rec r).liveness = r.liveness ∧
    (stUpd rec r).sources =
      (if truthyS rec.organization then
        setAdd r.sources ("securitytrails:" ++ rec.organization.getD "")
       else r.sources) := by
  unfold stUpd
  by_cases h1 : truthyS rec.organization = true
  · rw [if_pos h1]
    obtain ⟨hh, hi, ht, hs, htt, hw, hl⟩ := stPortsFold_frame rec.ports
      { r with sources := setAdd r.sources ("securitytrails:" ++ rec.organization.getD "") }
    refine ⟨hh, hi, ht, htt, hw, hl, ?_⟩
    rw [hs, if_pos h1]
  · rw [if_neg h1]
    obtain ⟨hh, hi, ht, hs, htt, hw, hl⟩ := stPortsFold_frame rec.ports r
    refine ⟨hh, hi, ht, htt, hw, hl, ?_⟩
    rw [hs, if_neg h1]

/-- Fields of a host entry after a whole securitytrails pass. -/
theorem stUpd_fold (fl : List StRecord) :
    ∀ r : HostEntry,
      ((fl.foldl (fun r e => stUpd e r) r).host = r.host) ∧
      ((fl.foldl (fun r e => stUpd e r) r).ips = r.ips) ∧
      ((fl.foldl (fun r e => stUpd e r) r).tech = r.tech) ∧
      ((fl.foldl (fun r e => stUpd e r) r).titles = r.titles) ∧
      ((fl.foldl (fun r e => stUpd e r) r).webservers = r.webservers) ∧
      ((fl.foldl (fun r e => stUpd e r) r).liveness = r.liveness) ∧
      (∀ s, s ∈ (fl.foldl (fun r e => stUpd e r) r).sources ↔
        s ∈ r.sources ∨
          s ∈ fl.filterMap
            (fun rec =>
              if truthyS rec.organization then
                some ("securitytrails:" ++ rec.organization.getD "")
              else none)) := by
  induction fl with
  | nil => simp
  | cons rec rest ih =>
    intro r
    simp only [List.foldl_cons, List.filterMap_cons]
    obtain ⟨hh, hi, ht, htt, hw, hl, hs⟩ := ih (stUpd rec r)
    obtain ⟨eh, ei, et, ett, ew, el, es⟩ := stUpd_fields rec r
    refine ⟨hh.trans eh, hi.trans ei, ht.trans et, htt.trans ett, hw.trans ew,
      hl.trans el, ?_⟩
    intro s
    rw [hs s, es]
    by_cases h1 : truthyS rec.organization = true
    · simp only [h1, if_pos, mem_setAdd, List.mem_cons]
      tauto
    · simp [h1]

/-- Entry fields after the subfinder block. -/
theorem entryFor_subPhase (o : Option (List SubfinderEntry))
    (m : List (String × HostEntry)) (h : String) :
    ((entryFor (phaseFold subfinderStep o m) h).host = (entryFor m h).host) ∧
    ((entryFor (phaseFold subfinderStep o m) h).tech = (entryFor m h).tech) ∧
    ((entryFor (phaseFold subfinderStep o m) h).titles = (entryFor m h).titles) ∧
    ((entryFor (phaseFold subfinderStep o m) h).webservers = (entryFor m h).webservers) ∧
    ((entryFor (phaseFold subfinderStep o m) h).liveness = (entryFor m h).liveness) ∧
    ((entryFor (phaseFold subfinderStep o m) h).ports = (entryFor m h).ports) ∧
    (∀ x, x ∈ (entryFor (phaseFold subfinderStep o m) h).ips ↔
      x ∈ (entryFor m h).ips ∨ x ∈ subIps o h) ∧
    (∀ s, s ∈ (entryFor (phaseFold subfinderStep o m) h).sources ↔
      s ∈ (entryFor m h).sources ∨ s ∈ subSources o h) := by
  cases o with
  | none => simp [phaseFold, subIps, subSources]
  | some l =>
    have h0 : entryFor (l.foldl subfinderStep m) h =
        (l.filter (fun e => e.host == h)).foldl (fun r e => subfinderUpd e r)
          (entryFor m h) :=
      entryFor_foldl_upsert (fun e : SubfinderEntry => e.host) subfinderUpd l m h
    simp only [phaseFold, h0, subIps, subSources]
    exact subfinderUpd_fold _ _

/-- Entry fields after the amass block. -/
theorem entryFor_amassPhase (o : Option (List AmassNode))
    (m : List (String × HostEntry)) (h : String) :
    ((entryFor (phaseFold amassStep o m) h).host = (entryFor m h).host) ∧
    ((entryFor (phaseFold amassStep o m) h).tech = (entryFor m h).tech) ∧
    ((entryFor (phaseFold amassStep o m) h).titles = (entryFor m h).titles) ∧
    ((entryFor (phaseFold amassStep o m) h).webservers = (entryFor m h).webservers) ∧
    ((entryFor (phaseFold amassStep o m) h).liveness = (entryFor m h).liveness) ∧
    ((entryFor (phaseFold amassStep o m) h).ports = (entryFor m h).ports) ∧
    (∀ x, x ∈ (entryFor (phaseFold amassStep o m) h).ips ↔
      x ∈ (entryFor m h).ips ∨ x ∈ amassIps o h) ∧
    (∀ s, s ∈ (entryFor (phaseFold amassStep o m) h).sources ↔
      s ∈ (entryFor m h).sources ∨ s ∈ amassSources o h) := by
  cases o with
  | none => simp [phaseFold, amassIps, amassSources]
  | some l =>
    have h0 : entryFor (l.foldl amassStep m) h =
        (l.filter (fun e => e.name == h)).foldl (fun r e => amassUpd e r) (entryFor m h) :=
      entryFor_foldl_upsert (fun e : AmassNode => e.name) amassUpd l m h
    simp only [phaseFold, h0, amassIps, amassSources]
    exact amassUpd_fold _ _

/-- Entry fields after the httpx block. -/
theorem entryFor_httpxPhase (o : Option (List HttpxEntry))
    (m : List (String × HostEntry)) (h : String) :
    ((entryFor (phaseFold httpxStep o m) h).host = (entryFor m h).host) ∧
    ((entryFor (phaseFold httpxStep o m) h).sources = (entryFor m h).sources) ∧
    ((entryFor (phaseFold httpxStep o m) h).liveness =
      ((entryFor m h).liveness || httpxAlive o h)) ∧
    (∀ t, t ∈ (entryFor (phaseFold httpxStep o m) h).titles ↔
      t ∈ (entryFor m h).titles ∨ t ∈ httpxTitles o h) ∧
    (∀ w, w ∈ (entryFor (phaseFold httpxStep o m) h).webservers ↔
      w ∈ (entryFor m h).webservers ∨ w ∈ httpxWebservers o h) ∧
    (∀ t, t ∈ (entryFor (phaseFold httpxStep o m) h).tech ↔
      t ∈ (entryFor m h).tech ∨ t ∈ httpxTech o h) ∧
    (∀ x, x ∈ (entryFor (phaseFold httpxStep o m) h).ips ↔
      x ∈ (entryFor m h).ips ∨ x ∈ httpxIps o h) := by
  cases o with
  | none => simp [phaseFold, httpxAlive, httpxTitles, httpxWebservers, httpxTech, httpxIps]
  | some l =>
    have h0 : entryFor (l.foldl httpxStep m) h =
        (l.filter (fun e => e.host == h)).foldl (fun r e => httpxUpd e r) (entryFor m h) :=
      entryFor_foldl_upsert (fun e : HttpxEntry => e.host) httpxUpd l m h
    simp only [phaseFold, h0, httpxAlive, httpxTitles, httpxWebservers, httpxTech, httpxIps]
    exact httpxUpd_fold _ _

/-- Entry fields after the securitytrails block's host-map part. -/
theorem entryFor_stMapPhase (o : Option (List StRecord))
    (m : List (String × HostEntry)) (h : String) :
    ((entryFor (phaseFold (fun m rec => upsertThen m rec.hostname (stUpd rec)) o m) h).host =
      (entryFor m h).host) ∧
    ((entryFor (phaseFold (fun m rec => upsertThen m rec.hostname (stUpd rec)) o m) h).ips =
      (entryFor m h).ips) ∧
    ((entryFor (phaseFold (fun m rec => upsertThen m rec.hostname (stUpd rec)) o m) h).tech =
      (entryFor m h).tech) ∧
    ((entryFor (phaseFold (fun m rec => upsertThen m rec.hostname (stUpd rec)) o m) h).titles =
      (entryFor m h).titles) ∧
    ((entryFor (phaseFold (fun m rec => upsertThen m rec.hostname (stUpd rec)) o m) h).webservers =
      (entryFor m h).webservers) ∧
    ((entryFor (phaseFold (fun m rec => upsertThen m rec.hostname (stUpd rec)) o m) h).liveness =
      (entryFor m h).liveness) ∧
    (∀ s, s ∈ (entryFor (phaseFold (fun m rec => upsertThen m rec.hostname (stUpd rec)) o m) h).sources ↔
      s ∈ (entryFor m h).sources ∨ s ∈ stSources o h) := by
  cases o with
  | none => simp [phaseFold, stSources]
  | some l =>
    have h0 : entryFor (l.foldl (fun m rec => upsertThen m rec.hostname (stUpd rec)) m) h =
        (l.filter (fun rec => rec.hostname == h)).foldl (fun r rec => stUpd rec r)
          (entryFor m h) :=
      entryFor_foldl_upsert (fun rec : StRecord => rec.hostname) stUpd l m h
    simp only [phaseFold, h0, stSources]
    exact stUpd_fold _ _

/-- The two components of the securitytrails block. -/
theorem stPhase_components (o : Option (List StRecord))
    (s : List (String × HostEntry) × List (String × String)) :
    (stPhase o s).1 =
      phaseFold (fun m rec => upsertThen m rec.hostname (stUpd rec)) o s.1 ∧
    (stPhase o s).2 =
      (match o with
       | none => s.2
       | some l => l.foldl stCountryUpd s.2) := by
  cases o with
  | none => exact ⟨rfl, rfl⟩
  | some l =>
    simp only [stPhase, phaseFold]
    induction l generalizing s with
    | nil => exact ⟨rfl, rfl⟩
    | cons rec rest ih =>
      simp only [List.foldl_cons]
      exact ih (stStep s rec)

/-- `getLast?` of a cons, with the head as the fallback. -/
theorem getLast?_cons_getD {α : Type} (x : α) (xs : List α) :
    (x :: xs).getLast? = some (xs.getLast?.getD x) := by
  induction xs generalizing x with
  | nil => rfl
  | cons y ys ih =>
    rw [List.getLast?_cons_cons, ih y]
    simp [ih]

/-- The `countryByHost` map after the securitytrails pass holds, for each
host, the *last* truthy country reported for it. -/
theorem mapGet_stCountryFold (l : List StRecord) :
    ∀ (c : List (String × String)) (h : String),
      mapGet (l.foldl stCountryUpd c) h =
        match ((l.filter (fun r => r.hostname == h)).filterMap
            (fun r => if truthyS r.country then some (r.country.getD "") else none)).getLast? with
        | some v => some v
        | none => mapGet c h := by
  induction l with
  | nil => intro c h; rfl
  | cons rec rest ih =>
    intro c h
    simp only [List.foldl_cons, List.filter_cons]
    rw [ih (stCountryUpd c rec) h]
    by_cases hh : rec.hostname = h
    · rw [if_pos (by simpa using hh)]
      simp only [List.filterMap_cons]
      by_cases hc : truthyS rec.country = true
      · rw [if_pos hc, getLast?_cons_getD]
        cases hrest : ((rest.filter (fun r => r.hostname == h)).filterMap
            (fun r => if truthyS r.country then some (r.country.getD "") else none)).getLast? with
        | some v => simp [hrest]
        | none =>
          simp only [hrest, Option.getD_none]
          unfold stCountryUpd
          rw [if_pos hc, mapGet_mapSet, if_pos hh.symm]
      · rw [if_neg hc]
        cases hrest : ((rest.filter (fun r => r.hostname == h)).filterMap
            (fun r => if truthyS r.country then some (r.country.getD "") else none)).getLast? with
        | some v => simp [hrest]
        | none =>
          simp only [hrest]
          unfold stCountryUpd
          rw [if_neg hc]
    · rw [if_neg (by simpa using hh)]
      cases hrest : ((rest.filter (fun r => r.hostname == h)).filterMap
          (fun r => if truthyS r.country then some (r.country.getD "") else none)).getLast? with
      | some v => simp [hrest]
      | none =>
        simp only [hrest]
        unfold stCountryUpd
        by_cases hc : truthyS rec.country = true
        · rw [if_pos hc, mapGet_mapSet, if_neg (fun hhh => hh hhh.symm)]
        · rw [if_neg hc]

/-- C3 (counterexample): two securitytrails records for `foo.bar` report
countries `US` then `DE`; the emitted fingerprint country is the *last*
one, `DE`, not the first non-empty value `US`. -/
theorem normalizeRecon_country_not_first_wins :
    ((normalizeRecon countryCexInputs "NOW" "SNOW").toOption.getD []).map
        (fun r => r.fingerprintCountry) = [some "DE"] ∧
    ((countryCexInputs.securitytrails.getD []).filterMap (fun r => r.country)) =
      ["US", "DE"] ∧
    some "DE" ≠ some "US" := by
  refine ⟨by decide, by decide, by decide⟩

/-- C3 (amended): for every input, the accumulated host record unions IP
addresses, technology names and provenance tags as sets, ORs liveness
across httpx observations, collects *all* truthy title and webserver
values as sets, and maps each host to the *last* non-empty country seen
(a later securitytrails record overwrites an earlier one). -/
theorem normalizeRecon_merge_policy (inputs : ReconInputs) (h : String) (e : HostEntry)
    (hm : mapGet (buildHostMap inputs).1 h = some e) :
    (∀ x, x ∈ e.ips ↔ x ∈ specReportedIps inputs h) ∧
    (∀ t, t ∈ e.tech ↔ t ∈ specReportedTech inputs h) ∧
    (∀ s, s ∈ e.sources ↔ s ∈ specReportedSources inputs h) ∧
    (e.liveness = specReportedAlive inputs h) ∧
    (∀ t, t ∈ e.titles ↔ t ∈ specReportedTitles inputs h) ∧
    (∀ w, w ∈ e.webservers ↔ w ∈ specReportedWebservers inputs h) ∧
    mapGet (buildHostMap inputs).2.1 h = specLastCountry inputs h := by
  have he : e = entryFor (buildHostMap inputs).1 h := by
    unfold entryFor
    rw [hm]
    rfl
  subst he
  have hb1 : (buildHostMap inputs).1 =
      phaseFold (fun m rec => upsertThen m rec.hostname (stUpd rec)) inputs.securitytrails
        (phaseFold httpxStep inputs.httpx
          (phaseFold amassStep inputs.amass (phaseFold subfinderStep inputs.subfinder []))) := by
    simp only [buildHostMap]
    exact (stPhase_components _ _).1
  have hb2 : (buildHostMap inputs).2.1 =
      (match inputs.securitytrails with
       | none => ([] : List (String × String))
       | some l => l.foldl stCountryUpd []) := by
    simp only [buildHostMap]
    exact (stPhase_components _ _).2
  rw [hb1, hb2]
  set m1 := phaseFold subfinderStep inputs.subfinder [] with hm1
  set m2 := phaseFold amassStep inputs.amass m1 with hm2
  set m3 := phaseFold httpxStep inputs.httpx m2 with hm3
  obtain ⟨s1h, s1t, s1tt, s1w, s1l, s1p, s1i, s1s⟩ := entryFor_subPhase inputs.subfinder [] h
  obtain ⟨a2h, a2t, a2tt, a2w, a2l, a2p, a2i, a2s⟩ := entryFor_amassPhase inputs.amass m1 h
  obtain ⟨x3h, x3s, x3l, x3tt, x3w, x3t, x3i⟩ := entryFor_httpxPhase inputs.httpx m2 h
  obtain ⟨t4h, t4i, t4t, t4tt, t4w, t4l, t4s⟩ := entryFor_stMapPhase inputs.securitytrails m3 h
  have hbase : entryFor ([] : List (String × HostEntry)) h = { host := h } := rfl
  refine ⟨?_, ?_, ?_, ?_, ?_, ?_, ?_⟩
  · intro x
    rw [t4i, x3i x, a2i x, s1i x, hbase]
    simp [specReportedIps, List.mem_append, or_assoc]
  · intro t
    rw [t4t, x3t t, a2t, s1t, hbase]
    simp [specReportedTech]
  · intro s
    rw [t4s s, x3s, a2s s, s1s s, hbase]
    simp [specReportedSources, List.mem_append, or_assoc]
  · rw [t4l, x3l, a2l, s1l, hbase]
    simp [specReportedAlive]
  · intro t
    rw [t4tt, x3tt t, a2tt, s1tt, hbase]
    simp [specReportedTitles]
  · intro w
    rw [t4w, x3w w, a2w, s1w, hbase]
    simp [specReportedWebservers]
  · cases hst : inputs.securitytrails with
    | none => simp [mapGet, specLastCountry, stCountries, hst]
    | some l =>
      rw [mapGet_stCountryFold l [] h]
      simp only [specLastCountry, stCountries, hst]
      cases hlast : ((l.filter (fun r => r.hostname == h)).filterMap
          (fun r => if truthyS r.country then some (r.country.getD "") else none)).getLast? with
      | some v => simp [hlast]
      | none => simp [hlast, mapGet]

/-- Witness for C3's amended theorem at the spec's merge example: subfinder
reports `foo.bar` with IP `1.2.3.4`, httpx reports it alive with
technology `nginx`. -/
theorem normalizeRecon_merge_policy_witness :
    mapGet (buildHostMap mergeWitInputs).1 "foo.bar" = some mergeWitEntry ∧
    ("1.2.3.4" ∈ mergeWitEntry.ips ↔
      "1.2.3.4" ∈ specReportedIps mergeWitInputs "foo.bar") ∧
    mergeWitEntry.liveness = specReportedAlive mergeWitInputs "foo.bar" ∧
    ("nginx" ∈ mergeWitEntry.tech ↔ "nginx" ∈ specReportedTech mergeWitInputs "foo.bar") :=
  ⟨by decide,
   (normalizeRecon_merge_policy mergeWitInputs "foo.bar" mergeWitEntry (by decide)).1
     "1.2.3.4",
   (normalizeRecon_merge_policy mergeWitInputs "foo.bar" mergeWitEntry (by decide)).2.2.2.1,
   (normalizeRecon_merge_policy mergeWitInputs "foo.bar" mergeWitEntry (by decide)).2.1
     "nginx"⟩
